import Mathlib

/-!
Verification of the hybrid retrieval worker (chunking, BM25 lexical scoring,
reciprocal rank fusion, reranker blending, ingestion and deletion lifecycle).

The definitions below are a shallow embedding of the worker source
(src/src/index.ts).  JavaScript floating point numbers are modelled as
rationals; the one transcendental primitive used by the code, Math.log, is
modelled as an abstract function parameter lg so that every
definition stays computable.  JavaScript Map objects (insertion ordered,
unique keys) are modelled as association lists together with a
set-or-update operation; the D1 relational store is modelled as lists of
rows with the operations the SQL statements perform.
-/

attribute [local semireducible] Rat.add Rat.mul Rat.inv Rat.sub Rat.ofScientific

set_option maxRecDepth 100000
set_option maxHeartbeats 1000000

namespace VectorizeWorker

/-! ## String helpers (JS splitting, trimming and slicing primitives) -/

/-- Skip a leading run of characters satisfying p (helper for trimming). -/
def skipWhile (p : Char → Bool) : List Char → List Char
  | [] => []
  | c :: rest => if p c then skipWhile p rest else c :: rest

/-- Split on maximal runs of characters satisfying p, as the JS
String.split with a one-character-class-plus regex does.  The Boolean
flag records whether the scanner is inside a separator run; a leading or
trailing separator yields an empty piece, as in JS. -/
def splitRunsCore (p : Char → Bool) : List Char → Bool → List Char → List (List Char)
  | [], _, acc => [acc.reverse]
  | c :: rest, skipping, acc =>
    if p c then
      if skipping then splitRunsCore p rest true acc
      else acc.reverse :: splitRunsCore p rest true []
    else splitRunsCore p rest false (c :: acc)

def splitOnRuns (p : Char → Bool) (l : List Char) : List (List Char) :=
  splitRunsCore p l false []

/-- Embedding of text.split with the blank-line regex: the separator is a
run of two or more newline characters (the plus is greedy, so a maximal
run is consumed); a single newline is ordinary content.  The Boolean flag
records whether the scanner is inside a newline run that has already
split. -/
def splitParasCore : List Char → Bool → List Char → List (List Char)
  | [], _, acc => [acc.reverse]
  | '\n' :: '\n' :: rest, false, acc => acc.reverse :: splitParasCore rest true []
  | c :: rest, true, acc =>
    if c = '\n' then splitParasCore rest true acc else splitParasCore rest false (c :: acc)
  | c :: rest, false, acc => splitParasCore rest false (c :: acc)

def splitParagraphs (text : String) : List String :=
  (splitParasCore text.data false []).map String.mk

/-- Embedding of the JS String.trim: drop whitespace from both ends. -/
def trimWS (s : String) : String :=
  String.mk ((skipWhile Char.isWhitespace ((skipWhile Char.isWhitespace s.data).reverse)).reverse)

/-- Embedding of the JS negative-index slice(-n): the last n characters
of the string (the whole string when it is shorter than n). -/
def lastChars (n : ℕ) (s : String) : String :=
  String.mk (s.data.drop (s.data.length - n))

/-! ## Chunking engine -/

def maxChunkSize : ℕ := 512
def minChunkSize : ℕ := 100

/-- overlapSize = Math.floor(maxChunkSize * overlapPercent) with
overlapPercent = 0.15; Math.floor(512 * 0.15) = 76. -/
def overlapSize : ℕ := 512 * 15 / 100

structure Chunk where
  id : String
  content : String
  parentId : String
  chunkIndex : ℕ
deriving DecidableEq, Repr

/-- Chunk ids are documentId ++ "-chunk-" ++ ordinal. -/
def chunkId (documentId : String) (ordinal : ℕ) : String :=
  documentId ++ "-chunk-" ++ Nat.repr ordinal

/-- One iteration of the paragraph loop of ChunkingEngine.chunk.  The
state is (chunks emitted so far, current buffer, next chunk ordinal).
First the flush test: if appending the paragraph would push the buffer
past maxChunkSize and the trimmed buffer is non-empty, the trimmed buffer
is emitted and the buffer is reduced to its last overlapSize characters.
Then the paragraph is appended to the buffer, preceded by a blank line
when the buffer is non-empty. -/
def chunkStep (documentId : String) (st : List Chunk × String × ℕ) (p : String) :
    List Chunk × String × ℕ :=
  let s1 :=
    if maxChunkSize < (st.2.1 ++ "\n\n" ++ p).length ∧ trimWS st.2.1 ≠ "" then
      (st.1 ++ [{ id := chunkId documentId st.2.2, content := trimWS st.2.1,
                  parentId := documentId, chunkIndex := st.2.2 }],
       lastChars overlapSize st.2.1, st.2.2 + 1)
    else st
  (s1.1, (if s1.2.1 = "" then "" else s1.2.1 ++ "\n\n") ++ p, s1.2.2)

/-- Embedding of ChunkingEngine.chunk: split into paragraphs at blank
lines, fold the paragraph loop, emit the final buffer when it meets the
minimum size, and fall back to a single whole-text chunk when nothing
qualified. -/
def chunk (text : String) (documentId : String) : List Chunk :=
  let paragraphs := (splitParagraphs text).filter (fun p => trimWS p ≠ "")
  let st := paragraphs.foldl (chunkStep documentId) ([], "", 0)
  let chunks :=
    if minChunkSize ≤ (trimWS st.2.1).length then
      st.1 ++ [{ id := chunkId documentId st.2.2, content := trimWS st.2.1,
                 parentId := documentId, chunkIndex := st.2.2 }]
    else st.1
  if chunks = [] then
    [{ id := chunkId documentId 0, content := trimWS text, parentId := documentId, chunkIndex := 0 }]
  else chunks

/-! ## Keyword (BM25) engine -/

/-- The stop word set of KeywordSearchEngine. -/
def stopWords : List String :=
  ["the", "a", "an", "and", "or", "but", "in", "on", "at", "to", "for", "of", "with",
   "by", "is", "are", "was", "were", "be", "this", "that", "it", "they", "have", "has", "had"]

/-- The replace(/[^\w\s]/g, " ") step: non-word, non-whitespace characters
become spaces (JS word characters are alphanumerics and underscore). -/
def normalizeChar (c : Char) : Char :=
  if c.isAlphanum ∨ c = '_' ∨ c.isWhitespace then c else ' '

/-- Embedding of KeywordSearchEngine.tokenize: lowercase, replace
punctuation by spaces, split on whitespace runs, keep tokens longer than
two characters that are not stop words. -/
def tokenize (text : String) : List String :=
  ((splitOnRuns Char.isWhitespace (text.data.map (fun c => normalizeChar c.toLower))).map
      String.mk).filter
    (fun t => 2 < t.length ∧ ¬ t ∈ stopWords)

/-- The per-document term frequency map (JS Map: insertion ordered,
counts bumped in place). -/
def bumpTerm (m : List (String × ℕ)) (t : String) : List (String × ℕ) :=
  if m.any (fun p => p.1 = t) then m.map (fun p => if p.1 = t then (p.1, p.2 + 1) else p)
  else m ++ [(t, 1)]

def termFrequencies (tokens : List String) : List (String × ℕ) :=
  tokens.foldl bumpTerm []

structure DocRow where
  id : String
  content : String
  category : String
  chunkIndex : ℕ
  parentId : String
  wordCount : ℕ
deriving DecidableEq, Repr

structure KeywordRow where
  documentId : String
  term : String
  termFrequency : ℕ
deriving DecidableEq, Repr

/-- The D1 store: documents and keywords tables, the term_stats table and
the single doc_stats row (total_documents, avg_doc_length). -/
structure KWStore where
  docs : List DocRow
  keywords : List KeywordRow
  termStats : List (String × ℕ)
  totalDocuments : ℕ
  avgDocLength : ℚ
deriving DecidableEq, Repr

def emptyStore : KWStore :=
  { docs := [], keywords := [], termStats := [], totalDocuments := 0, avgDocLength := 0 }

/-- The ON CONFLICT upsert of term_stats: document_frequency + 1 for an
existing term, a fresh row with frequency 1 otherwise. -/
def bumpTermStat (ts : List (String × ℕ)) (term : String) : List (String × ℕ) :=
  if ts.any (fun q => q.1 = term) then ts.map (fun q => if q.1 = term then (q.1, q.2 + 1) else q)
  else ts ++ [(term, 1)]

/-- Embedding of KeywordSearchEngine.indexDocument: insert one posting
row per distinct term, upsert each term global document frequency, and
update the doc_stats row with the incremental mean over the token count
(the whole batch is applied atomically; the doc_stats statement is always
part of the batch). -/
def indexDocument (store : KWStore) (docId : String) (content : String) : KWStore :=
  let tokens := tokenize content
  let tf := termFrequencies tokens
  { store with
    keywords := store.keywords ++
      tf.map (fun p => { documentId := docId, term := p.1, termFrequency := p.2 }),
    termStats := tf.foldl (fun ts p => bumpTermStat ts p.1) store.termStats,
    totalDocuments := store.totalDocuments + 1,
    avgDocLength :=
      (store.avgDocLength * store.totalDocuments + (tokens.length : ℚ)) / (store.totalDocuments + 1) }

/-! BM25 scoring.  The code computes
idf = Math.log((N - df + 0.5) / (df + 0.5) + 1) and
tf = (tf * (k1 + 1)) / (tf + k1 * (1 - b + b * (docLen / avgLen)))
with k1 = 1.2 and b = 0.75; Math.log is the abstract parameter lg. -/

def bm25K1 : ℚ := 6 / 5
def bm25B : ℚ := 3 / 4

def idfArg (n df : ℕ) : ℚ := ((n : ℚ) - (df : ℚ) + 1 / 2) / ((df : ℚ) + 1 / 2) + 1

def tfComponent (tf : ℕ) (docLen avgLen : ℚ) : ℚ :=
  ((tf : ℚ) * (bm25K1 + 1)) / ((tf : ℚ) + bm25K1 * (1 - bm25B + bm25B * (docLen / avgLen)))

/-- The per-(chunk, term) BM25 score contribution idf * tf_component. -/
def bm25Score (lg : ℚ → ℚ) (n df tf : ℕ) (docLen avgLen : ℚ) : ℚ :=
  lg (idfArg n df) * tfComponent tf docLen avgLen

/-- One row of the documents-keywords-term_stats join of
KeywordSearchEngine.search.  docLength is LENGTH(d.content), the length
of the stored chunk content in characters. -/
structure JoinRow where
  id : String
  content : String
  category : String
  termFrequency : ℕ
  docLength : ℕ
  documentFrequency : ℕ
deriving DecidableEq, Repr

def joinRows (store : KWStore) (tokens : List String) : List JoinRow :=
  store.keywords.filterMap (fun k =>
    if k.term ∈ tokens then
      match store.docs.find? (fun d => d.id = k.documentId),
            store.termStats.find? (fun q => q.1 = k.term) with
      | some d, some ts =>
        some { id := d.id, content := d.content, category := d.category,
               termFrequency := k.termFrequency, docLength := d.content.length,
               documentFrequency := ts.2 }
      | _, _ => none
    else none)

structure ScoreEntry where
  id : String
  score : ℚ
  content : String
  category : String
deriving DecidableEq, Repr

/-- Accumulate one join row into the per-chunk score map: sum the BM25
contributions of the matching query terms per chunk id. -/
def addRow (lg : ℚ → ℚ) (n : ℕ) (avgLen : ℚ) (m : List ScoreEntry) (r : JoinRow) :
    List ScoreEntry :=
  let s := bm25Score lg n r.documentFrequency r.termFrequency (r.docLength : ℚ) avgLen
  if m.any (fun e => e.id = r.id) then
    m.map (fun e => if e.id = r.id then { e with score := e.score + s } else e)
  else m ++ [{ id := r.id, score := s, content := r.content, category := r.category }]

inductive Source where
  | vector
  | keyword
  | hybrid
deriving DecidableEq, Repr

structure SearchResult where
  id : String
  content : String
  score : ℚ
  category : String
  source : Source
deriving DecidableEq, Repr

/-- The descending comparator of the score sort (the JS sort is stable;
insertionSort is the stable sort of the embedding). -/
def scoreGE (a b : ScoreEntry) : Prop := b.score ≤ a.score

instance : DecidableRel scoreGE := fun a b => inferInstanceAs (Decidable (b.score ≤ a.score))

instance : IsTotal ScoreEntry scoreGE := ⟨fun a b => le_total b.score a.score⟩

instance : IsTrans ScoreEntry scoreGE := ⟨fun _ _ _ h1 h2 => le_trans h2 h1⟩

/-- Embedding of KeywordSearchEngine.search: tokenize the query, return
empty on zero tokens or an empty corpus, score the join rows, sum per
chunk, sort descending and truncate to topK. -/
def keywordSearch (lg : ℚ → ℚ) (store : KWStore) (query : String) (topK : ℕ) :
    List SearchResult :=
  let tokens := tokenize query
  if tokens = [] then []
  else if store.totalDocuments = 0 then []
  else
    let rows := joinRows store tokens
    let scores := rows.foldl (addRow lg store.totalDocuments store.avgDocLength) []
    ((List.insertionSort scoreGE scores).take topK).map
      (fun e => { id := e.id, content := e.content, score := e.score,
                  category := e.category, source := Source.keyword })

/-! ## Hybrid search: reciprocal rank fusion and reranker blending -/

structure HybridSearchResult where
  id : String
  content : String
  score : ℚ
  category : String
  source : Source
  vectorScore : Option ℚ
  keywordScore : Option ℚ
  rerankerScore : Option ℚ
  rrfScore : ℚ
deriving DecidableEq, Repr

def rrfK : ℚ := 60

/-- The contribution 1 / (rrfK + rank + 1) of one ranked list entry. -/
def rrfContrib (rank : ℕ) : ℚ := 1 / (rrfK + (rank : ℚ) + 1)

/-- The hybrid entry created for a vector result at the given rank. -/
def toHybridVec (r : SearchResult) (rank : ℕ) : HybridSearchResult :=
  { id := r.id, content := r.content, score := r.score, category := r.category,
    source := Source.hybrid, vectorScore := some r.score, keywordScore := none,
    rerankerScore := none, rrfScore := rrfContrib rank }

/-- The hybrid entry created for a keyword result whose id is not already
in the map. -/
def toHybridKw (r : SearchResult) (rank : ℕ) : HybridSearchResult :=
  { id := r.id, content := r.content, score := r.score, category := r.category,
    source := Source.hybrid, vectorScore := none, keywordScore := some r.score,
    rerankerScore := none, rrfScore := rrfContrib rank }

/-- The in-place update applied to an existing map entry when the same id
also appears in the keyword list. -/
def addKwScore (r : SearchResult) (rank : ℕ) (h : HybridSearchResult) : HybridSearchResult :=
  { h with keywordScore := some r.score, rrfScore := h.rrfScore + rrfContrib rank }

/-- Map.set on the association-list model of the JS Map: replace the
entry for an existing key in place, append a fresh key.  Keys in a JS Map
are unique, so the map-all-matching form agrees with the single update. -/
def mapSet (m : List HybridSearchResult) (e : HybridSearchResult) : List HybridSearchResult :=
  if m.any (fun x => x.id = e.id) then m.map (fun x => if x.id = e.id then e else x)
  else m ++ [e]

/-- The vectorResults.forEach pass: each result is set into the map with
its reciprocal-rank contribution. -/
def vectorPhase : List SearchResult → ℕ → List HybridSearchResult → List HybridSearchResult
  | [], _, m => m
  | r :: rs, rank, m => vectorPhase rs (rank + 1) (mapSet m (toHybridVec r rank))

/-- The keywordResults.forEach pass: an existing entry accumulates the
keyword contribution, a fresh id is appended. -/
def keywordPhase : List SearchResult → ℕ → List HybridSearchResult → List HybridSearchResult
  | [], _, m => m
  | r :: rs, rank, m =>
    keywordPhase rs (rank + 1)
      (if m.any (fun x => x.id = r.id) then
        m.map (fun x => if x.id = r.id then addKwScore r rank x else x)
      else m ++ [toHybridKw r rank])

/-- The descending comparator of the fused-score sort. -/
def hybridGE (a b : HybridSearchResult) : Prop := b.rrfScore ≤ a.rrfScore

instance : DecidableRel hybridGE := fun a b => inferInstanceAs (Decidable (b.rrfScore ≤ a.rrfScore))

instance : IsTotal HybridSearchResult hybridGE := ⟨fun a b => le_total b.rrfScore a.rrfScore⟩

instance : IsTrans HybridSearchResult hybridGE := ⟨fun _ _ _ h1 h2 => le_trans h2 h1⟩

/-- Embedding of HybridSearchEngine.reciprocalRankFusion: run both
passes over the shared map and sort the values descending by fused score
(the JS sort is stable, as is insertionSort). -/
def reciprocalRankFusion (vectorResults keywordResults : List SearchResult) :
    List HybridSearchResult :=
  List.insertionSort hybridGE (keywordPhase keywordResults 0 (vectorPhase vectorResults 0 []))

/-- At most this many fused candidates are sent to the reranker
(results.slice(0, 10)). -/
def rerankTop : ℕ := 10

/-- The blending of the reranker scores into the sliced candidate list:
entry i gets reranker score scores[i] (0 when the response is missing an
entry) and fused score 0.4 * rrf + 0.6 * reranker. -/
def rerankBlend (scores : List ℚ) : List HybridSearchResult → ℕ → List HybridSearchResult
  | [], _ => []
  | r :: rs, i =>
    { r with rerankerScore := some (scores.getD i 0),
             rrfScore := r.rrfScore * (2 / 5) + (scores.getD i 0) * (3 / 5) } ::
      rerankBlend scores rs (i + 1)

/-- Embedding of the fusion-and-rerank tail of HybridSearchEngine.search.
The collaborator outputs (vector matches, keyword results and the
reranker response) are parameters; a reranker failure is the error case
of rerankResponse and is swallowed by the try/catch, leaving the fused
list untouched.  The final list is truncated to topK. -/
def hybridSearchResults (vectorResults keywordResults : List SearchResult)
    (useReranker : Bool) (rerankResponse : Except Unit (List ℚ)) (topK : ℕ) :
    List HybridSearchResult :=
  let results := reciprocalRankFusion vectorResults keywordResults
  let results :=
    if useReranker = true ∧ results ≠ [] then
      match rerankResponse with
      | Except.error _ => results
      | Except.ok scores =>
        List.insertionSort hybridGE (rerankBlend scores (results.take rerankTop) 0)
    else results
  results.take topK

/-! ## Ingestion engine and deletion lifecycle -/

structure Doc where
  id : String
  content : String
  title : String
  source : String
  category : String
deriving DecidableEq, Repr

/-- A vector-index entry: chunk id, embedding omitted (the embedding
collaborator is opaque), and the metadata stored alongside it. -/
structure VecEntry where
  id : String
  content : String
  category : String
  parentId : String
  chunkIndex : ℕ
deriving DecidableEq, Repr

/-- Combined system state: the D1 store and the vector index. -/
structure SysState where
  kw : KWStore
  vec : List VecEntry
deriving DecidableEq, Repr

def emptySys : SysState := { kw := emptyStore, vec := [] }

/-- Vectorize upsert of one vector: overwrite the entry with the same
id, append otherwise. -/
def upsertOne (m : List VecEntry) (v : VecEntry) : List VecEntry :=
  if m.any (fun x => x.id = v.id) then m.map (fun x => if x.id = v.id then v else x)
  else m ++ [v]

def upsertList (m : List VecEntry) (vs : List VecEntry) : List VecEntry :=
  vs.foldl upsertOne m

def deleteByIds (ids : List String) (m : List VecEntry) : List VecEntry :=
  m.filter (fun v => ¬ v.id ∈ ids)

/-- The WHERE id = ? OR parent_id = ? predicate used by the dedup check,
the deletion SELECT and the deletion DELETE. -/
def docMatches (docId : String) (r : DocRow) : Bool :=
  r.id = docId || r.parentId = docId

/-- Embedding of IngestionEngine.delete: select the matching chunk ids;
when any exist, delete them from the vector index and delete the document
rows (the keywords postings of those rows go with them through the
ON DELETE CASCADE foreign key of the schema; term_stats and doc_stats are
not touched). -/
def deleteDoc (docId : String) (s : SysState) : SysState :=
  let ids := (s.kw.docs.filter (docMatches docId)).map (fun r => r.id)
  if ids = [] then s
  else
    { kw := { s.kw with
        docs := s.kw.docs.filter (fun r => ¬ docMatches docId r = true),
        keywords := s.kw.keywords.filter (fun k => ¬ k.documentId ∈ ids) },
      vec := deleteByIds ids s.vec }

def docRowOf (doc : Doc) (c : Chunk) : DocRow :=
  { id := c.id, content := c.content, category := doc.category,
    chunkIndex := c.chunkIndex, parentId := c.parentId,
    wordCount := ((splitOnRuns Char.isWhitespace c.content.data).map String.mk).length }

def vecEntryOf (doc : Doc) (c : Chunk) : VecEntry :=
  { id := c.id, content := c.content, category := doc.category,
    parentId := c.parentId, chunkIndex := c.chunkIndex }

/-- The per-chunk body of the ingestion loop before the embedding call:
insert the documents row and index the chunk lexically. -/
def processChunk (doc : Doc) (s : SysState) (c : Chunk) : SysState :=
  { kw := indexDocument { s.kw with docs := s.kw.docs ++ [docRowOf doc c] } c.id c.content,
    vec := s.vec }

/-- The chunk loop of IngestionEngine.ingest.  embedOk says whether the
embedding collaborator call for a given chunk content succeeds; on a
failure the exception aborts the loop and the state at that point (the
failing chunk already persisted and lexically indexed, no vectors
upserted) escapes to the caller. -/
def ingestLoop (embedOk : String → Bool) (doc : Doc) :
    List Chunk → SysState → List VecEntry → Except SysState (SysState × List VecEntry)
  | [], s, vs => Except.ok (s, vs)
  | c :: cs, s, vs =>
    let s2 := processChunk doc s c
    if embedOk c.content then ingestLoop embedOk doc cs s2 (vs ++ [vecEntryOf doc c])
    else Except.error s2

/-- Embedding of IngestionEngine.ingest: dedup-delete when any row with
the document id (as id or as parent) exists, chunk, run the per-chunk
loop, and finally upsert all chunk vectors as one batch. -/
def ingest (embedOk : String → Bool) (doc : Doc) (s : SysState) : Except SysState SysState :=
  let s0 := if s.kw.docs.any (docMatches doc.id) then deleteDoc doc.id s else s
  match ingestLoop embedOk doc (chunk doc.content doc.id) s0 [] with
  | Except.error sErr => Except.error sErr
  | Except.ok (s1, vs) =>
    Except.ok (if vs = [] then s1 else { s1 with vec := upsertList s1.vec vs })

def okOf : Except SysState SysState → SysState
  | Except.ok s => s
  | Except.error s => s

/-! ## The /search handler validation -/

inductive SearchRequestOutcome where
  | validationError (message : String)
  | performSearch (query : String) (topK : ℚ)
deriving DecidableEq, Repr

/-- Embedding of the /search route validation: a missing or empty query
is rejected first; then topK is body.topK with JS-falsy values (absent
field or 0) defaulted to 5; values below 1 or above 20 are rejected;
otherwise the hybrid search (and hence the embedding call) runs. -/
def handleSearchRequest (query : Option String) (topKField : Option ℚ) :
    SearchRequestOutcome :=
  match query with
  | none => SearchRequestOutcome.validationError "Missing query field in request body"
  | some q =>
    if q = "" then SearchRequestOutcome.validationError "Missing query field in request body"
    else
      let topK : ℚ :=
        match topKField with
        | none => 5
        | some v => if v = 0 then 5 else v
      if topK < 1 ∨ 20 < topK then
        SearchRequestOutcome.validationError "topK must be between 1 and 20"
      else SearchRequestOutcome.performSearch q topK

/-! ## Decimal representation: chunk ids with distinct ordinals are distinct -/

/-- The digit list of a natural number, most significant first.  This is
the reference shape of Nat.toDigitsCore in base 10. -/
def digitsOf (n : ℕ) : List Char :=
  if n < 10 then [Nat.digitChar n]
  else digitsOf (n / 10) ++ [Nat.digitChar (n % 10)]
decreasing_by exact Nat.div_lt_self (by omega) (by omega)

theorem toDigitsCore_eq_digitsOf :
    ∀ (f n : ℕ) (ds : List Char), n < f → Nat.toDigitsCore 10 f n ds = digitsOf n ++ ds := by
  intro f
  induction f with
  | zero => intro n ds h; omega
  | succ f ih =>
    intro n ds h
    by_cases h10 : n / 10 = 0
    · have hn : n < 10 := by
        by_contra hc
        have : 1 ≤ n / 10 := (Nat.one_le_div_iff (by omega)).mpr (by omega)
        omega
      rw [Nat.toDigitsCore, digitsOf]
      simp [h10, hn, Nat.mod_eq_of_lt hn]
    · have hge : 10 ≤ n := by
        by_contra hlt
        exact h10 (Nat.div_eq_of_lt (by omega))
      have hlt : n / 10 < f := by
        have := Nat.div_lt_self (show 0 < n by omega) (show 1 < 10 by omega)
        omega
      rw [Nat.toDigitsCore]
      simp only [h10, if_false]
      rw [ih (n / 10) _ hlt]
      have hsplit : digitsOf n = digitsOf (n / 10) ++ [Nat.digitChar (n % 10)] := by
        conv_lhs => rw [digitsOf]
        simp [show ¬ n < 10 by omega]
      rw [hsplit]
      simp

def digitVal (c : Char) : ℕ := c.toNat - 48

def digitsVal (l : List Char) (a : ℕ) : ℕ :=
  l.foldl (fun acc c => 10 * acc + digitVal c) a

theorem digitVal_digitChar : ∀ n : ℕ, n < 10 → digitVal (Nat.digitChar n) = n := by decide

theorem digitsVal_digitsOf :
    ∀ n a : ℕ, digitsVal (digitsOf n) a = a * 10 ^ (digitsOf n).length + n := by
  intro n
  induction n using Nat.strong_induction_on with
  | _ n ih =>
    intro a
    by_cases h : n < 10
    · rw [digitsOf]
      simp [h, digitsVal, digitVal_digitChar n h]
      ring
    · rw [digitsOf]
      simp only [h, if_false]
      have hdiv : n / 10 < n := Nat.div_lt_self (by omega) (by omega)
      rw [digitsVal, List.foldl_append]
      have hrec := ih (n / 10) hdiv a
      rw [digitsVal] at hrec
      rw [hrec]
      simp [digitVal_digitChar (n % 10) (Nat.mod_lt n (by omega))]
      have hmod := Nat.div_add_mod n 10
      ring_nf
      omega

theorem digitsOf_injective {m n : ℕ} (h : digitsOf m = digitsOf n) : m = n := by
  have hm := digitsVal_digitsOf m 0
  have hn := digitsVal_digitsOf n 0
  rw [h] at hm
  omega

theorem string_data_inj {s t : String} (h : s.data = t.data) : s = t :=
  congrArg String.mk h

theorem natRepr_injective {m n : ℕ} (h : Nat.repr m = Nat.repr n) : m = n := by
  have hd : (Nat.toDigits 10 m) = (Nat.toDigits 10 n) := by
    have := congrArg String.data h
    simpa [Nat.repr, List.asString] using this
  rw [Nat.toDigits, Nat.toDigits,
      toDigitsCore_eq_digitsOf (m + 1) m [] (Nat.lt_succ_self m),
      toDigitsCore_eq_digitsOf (n + 1) n [] (Nat.lt_succ_self n)] at hd
  simp at hd
  exact digitsOf_injective hd

theorem chunkId_inj (d : String) {i j : ℕ} (h : chunkId d i = chunkId d j) : i = j := by
  apply natRepr_injective
  apply string_data_inj
  have := congrArg String.data h
  simp only [chunkId, String.data_append] at this
  exact List.append_cancel_left this

/-! ## Chunker step characterization -/

theorem string_ne_empty_data {s : String} (h : s ≠ "") : s.data ≠ [] := by
  intro hd
  exact h (string_data_inj (by simpa using hd))

theorem lastChars_ne_empty {s : String} (hs : s ≠ "") {n : ℕ} (hn : 0 < n) :
    lastChars n s ≠ "" := by
  unfold lastChars
  intro h
  have hd : s.data.drop (s.data.length - n) = [] := by
    have := congrArg String.data h
    simpa using this
  have hlen : s.data.length - (s.data.length - n) = 0 := by
    have h2 := congrArg List.length hd
    rw [List.length_drop] at h2
    simpa using h2
  have hpos : 0 < s.data.length := List.length_pos.mpr (string_ne_empty_data hs)
  omega

theorem trimWS_empty : trimWS "" = "" := rfl

theorem ne_empty_of_trim {s : String} (h : trimWS s ≠ "") : s ≠ "" := by
  intro hs
  rw [hs] at h
  exact h trimWS_empty

/-- The flush branch of the paragraph loop: when appending the paragraph
would exceed maxChunkSize and the trimmed buffer is non-empty, the trimmed
buffer is emitted as a chunk and the next buffer is the last overlapSize
characters of the untrimmed buffer followed by a blank line and the
paragraph. -/
theorem chunkStep_flush (d : String) (st : List Chunk × String × ℕ) (p : String)
    (hlen : maxChunkSize < (st.2.1 ++ "\n\n" ++ p).length) (hne : trimWS st.2.1 ≠ "") :
    chunkStep d st p =
      (st.1 ++ [{ id := chunkId d st.2.2, content := trimWS st.2.1,
                  parentId := d, chunkIndex := st.2.2 }],
       lastChars overlapSize st.2.1 ++ "\n\n" ++ p, st.2.2 + 1) := by
  have hseed : lastChars overlapSize st.2.1 ≠ "" :=
    lastChars_ne_empty (ne_empty_of_trim hne) (by decide)
  unfold chunkStep
  rw [if_pos ⟨hlen, hne⟩]
  simp [hseed]

/-- The non-flush branch: the paragraph is appended to the buffer. -/
theorem chunkStep_noflush (d : String) (st : List Chunk × String × ℕ) (p : String)
    (h : ¬ (maxChunkSize < (st.2.1 ++ "\n\n" ++ p).length ∧ trimWS st.2.1 ≠ "")) :
    chunkStep d st p =
      (st.1, (if st.2.1 = "" then "" else st.2.1 ++ "\n\n") ++ p, st.2.2) := by
  unfold chunkStep
  rw [if_neg h]

/-! ## Chunker structure: ids, parent back-references and index contiguity -/

/-- Every chunk of the list has the deterministic id of its position, the
document as parent, and its position as chunkIndex. -/
def ChunkListOk (d : String) (chunks : List Chunk) : Prop :=
  ∀ k (h : k < chunks.length),
    (chunks.get ⟨k, h⟩).id = chunkId d k ∧
    (chunks.get ⟨k, h⟩).parentId = d ∧
    (chunks.get ⟨k, h⟩).chunkIndex = k

theorem chunkListOk_nil (d : String) : ChunkListOk d [] := by
  intro k h
  simp at h

theorem chunkListOk_concat {d : String} {l : List Chunk} (hl : ChunkListOk d l)
    {c : Chunk} (hid : c.id = chunkId d l.length) (hp : c.parentId = d)
    (hx : c.chunkIndex = l.length) : ChunkListOk d (l ++ [c]) := by
  intro k h
  have hlen2 : (l ++ [c]).length = l.length + 1 := by simp
  rcases Nat.lt_or_ge k l.length with hk | hk
  · have hg : (l ++ [c]).get ⟨k, h⟩ = l.get ⟨k, hk⟩ := List.get_append k hk
    rw [hg]
    exact hl k hk
  · have hke : k = l.length := by omega
    subst hke
    have hg : (l ++ [c]).get ⟨l.length, h⟩ = c := by simp
    rw [hg]
    exact ⟨hid, hp, hx⟩

/-- The loop invariant of the paragraph fold: the emitted chunks are well
formed and the ordinal counter equals the number of emitted chunks. -/
theorem chunkStep_invariant (d : String) (st : List Chunk × String × ℕ) (p : String)
    (h : ChunkListOk d st.1 ∧ st.2.2 = st.1.length) :
    ChunkListOk d (chunkStep d st p).1 ∧ (chunkStep d st p).2.2 = (chunkStep d st p).1.length := by
  obtain ⟨hok, hlen⟩ := h
  by_cases hc : maxChunkSize < (st.2.1 ++ "\n\n" ++ p).length ∧ trimWS st.2.1 ≠ ""
  · rw [chunkStep_flush d st p hc.1 hc.2]
    refine ⟨chunkListOk_concat hok (by rw [hlen]) rfl hlen, ?_⟩
    simp [hlen]
  · rw [chunkStep_noflush d st p hc]
    exact ⟨hok, hlen⟩

theorem chunkFold_invariant (d : String) (ps : List String) :
    ∀ st : List Chunk × String × ℕ, ChunkListOk d st.1 ∧ st.2.2 = st.1.length →
      ChunkListOk d (ps.foldl (chunkStep d) st).1 ∧
      (ps.foldl (chunkStep d) st).2.2 = (ps.foldl (chunkStep d) st).1.length := by
  induction ps with
  | nil => intro st h; exact h
  | cons p ps ih =>
    intro st h
    exact ih (chunkStep d st p) (chunkStep_invariant d st p h)

theorem chunk_ok (text documentId : String) :
    0 < (chunk text documentId).length ∧ ChunkListOk documentId (chunk text documentId) := by
  simp only [chunk]
  have hinv := chunkFold_invariant documentId
    ((splitParagraphs text).filter (fun p => trimWS p ≠ "")) ([], "", 0)
    ⟨chunkListOk_nil documentId, rfl⟩
  set st := ((splitParagraphs text).filter (fun p => trimWS p ≠ "")).foldl
    (chunkStep documentId) ([], "", 0) with hst
  obtain ⟨hok, hlen⟩ := hinv
  set cfin : Chunk := { id := chunkId documentId st.2.2, content := trimWS st.2.1,
                        parentId := documentId, chunkIndex := st.2.2 } with hcfin
  by_cases hmin : minChunkSize ≤ (trimWS st.2.1).length
  · rw [if_pos hmin]
    have hok2 : ChunkListOk documentId (st.1 ++ [cfin]) :=
      chunkListOk_concat hok (by rw [hcfin, hlen]) rfl hlen
    have hne : st.1 ++ [cfin] ≠ ([] : List Chunk) := by simp
    rw [if_neg hne]
    refine ⟨?_, hok2⟩
    have : (st.1 ++ [cfin]).length = st.1.length + 1 := by simp
    omega
  · rw [if_neg hmin]
    by_cases hnil : st.1 = ([] : List Chunk)
    · rw [if_pos hnil]
      refine ⟨by simp, ?_⟩
      intro k hk
      simp at hk
      subst hk
      exact ⟨rfl, rfl, rfl⟩
    · rw [if_neg hnil]
      exact ⟨List.length_pos.mpr hnil, hok⟩

/-- Claim C7 — for every text and document id, chunk returns a non-empty
list in which the k-th chunk (0-based) has id documentId ++ "-chunk-" ++ k,
parent documentId and chunkIndex k; the chunkIndex values are therefore
the contiguous integers 0, 1, ... in emission order.  Determinism holds
because the embedding of ChunkingEngine.chunk is a pure function of
(text, documentId). -/
theorem chunk_structure (text documentId : String) (k : ℕ)
    (h : k < (chunk text documentId).length) :
    0 < (chunk text documentId).length ∧
    ((chunk text documentId).get ⟨k, h⟩).id = documentId ++ "-chunk-" ++ Nat.repr k ∧
    ((chunk text documentId).get ⟨k, h⟩).parentId = documentId ∧
    ((chunk text documentId).get ⟨k, h⟩).chunkIndex = k := by
  obtain ⟨hpos, hok⟩ := chunk_ok text documentId
  exact ⟨hpos, (hok k h).1, (hok k h).2.1, (hok k h).2.2⟩

/-- Witness for C7 at a concrete input. -/
theorem chunk_structure_witness :
    (0 : ℕ) < (chunk "hello" "doc").length ∧
    (0 < (chunk "hello" "doc").length ∧
     ((chunk "hello" "doc").get ⟨0, by decide⟩).id = "doc" ++ "-chunk-" ++ Nat.repr 0 ∧
     ((chunk "hello" "doc").get ⟨0, by decide⟩).parentId = "doc" ∧
     ((chunk "hello" "doc").get ⟨0, by decide⟩).chunkIndex = 0) :=
  ⟨by decide, chunk_structure "hello" "doc" 0 (by decide)⟩

/-! ## Chunk overlap seeding (C8) -/

/-- Claim C8 (amended) — at every mid-document chunk boundary (a flush:
appending the next paragraph would push the buffer past maxChunkSize and
the trimmed buffer is non-empty), the next buffer is seeded with the last
overlapSize = floor(512 * 0.15) = 76 characters of the untrimmed buffer
— a fixed character count derived from the maximum chunk size, not a 15
percent fraction of the emitted chunk — followed by a blank line and the
next paragraph. -/
theorem chunk_overlap_seed (d : String) (st : List Chunk × String × ℕ) (p : String)
    (hlen : maxChunkSize < (st.2.1 ++ "\n\n" ++ p).length) (hne : trimWS st.2.1 ≠ "") :
    chunkStep d st p =
      (st.1 ++ [{ id := chunkId d st.2.2, content := trimWS st.2.1,
                  parentId := d, chunkIndex := st.2.2 }],
       lastChars overlapSize st.2.1 ++ "\n\n" ++ p, st.2.2 + 1) ∧
    overlapSize = 76 :=
  ⟨chunkStep_flush d st p hlen hne, rfl⟩

/-- Witness for the amended C8 at a concrete flush. -/
theorem chunk_overlap_seed_witness :
    maxChunkSize <
      ((String.mk (List.replicate 520 'a') ++ "\n\n" ++ String.mk (List.replicate 100 'b'))).length ∧
    trimWS (String.mk (List.replicate 520 'a')) ≠ "" ∧
    (chunkStep "doc" ([], String.mk (List.replicate 520 'a'), 0)
        (String.mk (List.replicate 100 'b')) =
      ([] ++ [{ id := chunkId "doc" 0, content := trimWS (String.mk (List.replicate 520 'a')),
                parentId := "doc", chunkIndex := 0 }],
       lastChars overlapSize (String.mk (List.replicate 520 'a')) ++ "\n\n" ++
         String.mk (List.replicate 100 'b'), 0 + 1) ∧
     overlapSize = 76) :=
  ⟨by decide, by decide,
   chunk_overlap_seed "doc" ([], String.mk (List.replicate 520 'a'), 0)
     (String.mk (List.replicate 100 'b')) (by decide) (by decide)⟩

/-- Counterexample to C8 as stated: on the two-paragraph text below the
chunker emits a first chunk of 520 characters and seeds the next buffer
with its last 76 characters, not with the last 15 percent fraction
(520 * 15 / 100 = 78 characters) of the emitted chunk. -/
theorem chunk_overlap_counterexample :
    (chunk (String.mk (List.replicate 520 'a') ++ "\n\n" ++ String.mk (List.replicate 100 'b'))
        "doc").map (fun c => c.content) =
      [String.mk (List.replicate 520 'a'),
       lastChars 76 (String.mk (List.replicate 520 'a')) ++ "\n\n" ++
         String.mk (List.replicate 100 'b')] ∧
    520 * 15 / 100 = 78 ∧
    lastChars 76 (String.mk (List.replicate 520 'a')) ≠
      lastChars (520 * 15 / 100) (String.mk (List.replicate 520 'a')) := by
  refine ⟨by decide, by decide, ?_⟩
  intro h
  have hd := congrArg (fun s => s.data.length) h
  simp [lastChars] at hd

/-! ## Reciprocal rank fusion: score assignment and ordering (C1) -/

theorem nodup_map_get_ne {α β : Type} {l : List α} {f : α → β}
    (h : (l.map f).Nodup) {i j : ℕ} (hi : i < l.length) (hj : j < l.length)
    (hne : i ≠ j) : f (l.get ⟨i, hi⟩) ≠ f (l.get ⟨j, hj⟩) := by
  intro heq
  have hinj := List.nodup_iff_injective_get.mp h
  have hgi : (l.map f).get ⟨i, by simpa using hi⟩ = f (l.get ⟨i, hi⟩) := List.get_map f
  have hgj : (l.map f).get ⟨j, by simpa using hj⟩ = f (l.get ⟨j, hj⟩) := List.get_map f
  have : (⟨i, by simpa using hi⟩ : Fin (l.map f).length) = ⟨j, by simpa using hj⟩ :=
    hinj (by rw [hgi, hgj, heq])
  exact hne (by simpa using congrArg Fin.val this)

theorem mem_take_index {α : Type} {l : List α} {n : ℕ} {x : α} (h : x ∈ l.take n) :
    ∃ (i : ℕ) (hi : i < l.length), i < n ∧ l.get ⟨i, hi⟩ = x := by
  obtain ⟨⟨i, hlen⟩, hget⟩ := List.mem_iff_get.mp h
  have hi : i < l.length ∧ i < n := by
    have := hlen
    simp [List.length_take] at this
    omega
  refine ⟨i, hi.1, hi.2, ?_⟩
  rw [List.get_take l hi.1 hi.2]
  exact hget

theorem mem_drop_index {α : Type} {l : List α} {n : ℕ} {x : α} (h : x ∈ l.drop n) :
    ∃ (i : ℕ) (hi : i < l.length), n ≤ i ∧ l.get ⟨i, hi⟩ = x := by
  obtain ⟨⟨i, hlen⟩, hget⟩ := List.mem_iff_get.mp h
  have hni : n + i < l.length := by
    have := hlen
    simp [List.length_drop] at this
    omega
  refine ⟨n + i, hni, Nat.le_add_right n i, ?_⟩
  rw [List.get_drop l hni]
  exact hget

/-- The id field of the hybrid entries built from results. -/
theorem toHybridVec_id (r : SearchResult) (rank : ℕ) : (toHybridVec r rank).id = r.id := rfl

theorem toHybridKw_id (r : SearchResult) (rank : ℕ) : (toHybridKw r rank).id = r.id := rfl

theorem addKwScore_id (r : SearchResult) (rank : ℕ) (h : HybridSearchResult) :
    (addKwScore r rank h).id = h.id := rfl

/-- The entries produced by the vector pass, ranks threaded from the
given start. -/
def vectorEntries : List SearchResult → ℕ → List HybridSearchResult
  | [], _ => []
  | r :: rs, rank => toHybridVec r rank :: vectorEntries rs (rank + 1)

theorem vectorEntries_ids (rs : List SearchResult) :
    ∀ rank : ℕ, (vectorEntries rs rank).map (fun x => x.id) = rs.map (fun r => r.id) := by
  induction rs with
  | nil => intro rank; rfl
  | cons r rs ih =>
    intro rank
    simp [vectorEntries, toHybridVec_id, ih (rank + 1)]

theorem vectorEntries_mem (rs : List SearchResult) :
    ∀ (rank i : ℕ) (h : i < rs.length),
      toHybridVec (rs.get ⟨i, h⟩) (rank + i) ∈ vectorEntries rs rank := by
  induction rs with
  | nil => intro rank i h; simp at h
  | cons r rs ih =>
    intro rank i h
    cases i with
    | zero => simp [vectorEntries]
    | succ i =>
      have hi : i < rs.length := by simpa using h
      have harith : rank + (i + 1) = (rank + 1) + i := by omega
      rw [vectorEntries]
      refine List.mem_cons_of_mem _ ?_
      rw [show (r :: rs).get ⟨i + 1, h⟩ = rs.get ⟨i, hi⟩ from rfl, harith]
      exact ih (rank + 1) i hi

/-- When all ids of the vector list are fresh for the accumulated map and
mutually distinct, the vector pass appends its entries in order. -/
theorem vectorPhase_eq (rs : List SearchResult) :
    ∀ (rank : ℕ) (m : List HybridSearchResult),
      (∀ r ∈ rs, ∀ x ∈ m, x.id ≠ r.id) → (rs.map (fun r => r.id)).Nodup →
      vectorPhase rs rank m = m ++ vectorEntries rs rank := by
  induction rs with
  | nil => intro rank m _ _; simp [vectorPhase, vectorEntries]
  | cons r rs ih =>
    intro rank m hfresh hnd
    have hany : m.any (fun x => x.id = (toHybridVec r rank).id) = false := by
      rw [List.any_eq_false]
      intro x hx
      simpa [toHybridVec_id] using hfresh r (by simp) x hx
    have hset : mapSet m (toHybridVec r rank) = m ++ [toHybridVec r rank] := by
      rw [mapSet, hany]
      simp
    have hhead : r.id ∉ rs.map (fun r => r.id) := by
      have := hnd
      simp at this
      intro hmem
      obtain ⟨y, hy, hyid⟩ := List.mem_map.mp hmem
      exact this.1 y hy hyid
    have hfresh2 : ∀ r2 ∈ rs, ∀ x ∈ m ++ [toHybridVec r rank], x.id ≠ r2.id := by
      intro r2 hr2 x hx
      rcases List.mem_append.mp hx with hx | hx
      · exact hfresh r2 (by simp [hr2]) x hx
      · have hx2 : x = toHybridVec r rank := by simpa using hx
        rw [hx2, toHybridVec_id]
        intro hrr
        exact hhead (by rw [hrr]; exact List.mem_map_of_mem _ hr2)
    rw [vectorPhase, hset, ih (rank + 1) (m ++ [toHybridVec r rank]) hfresh2 (by simpa using hnd.of_cons),
        vectorEntries]
    simp

/-- Entries whose id does not occur in the keyword list pass through the
keyword pass untouched. -/
theorem keywordPhase_mem_preserved (ks : List SearchResult) :
    ∀ (rank : ℕ) (m : List HybridSearchResult) (e : HybridSearchResult),
      e ∈ m → (∀ k ∈ ks, k.id ≠ e.id) → e ∈ keywordPhase ks rank m := by
  induction ks with
  | nil => intro rank m e he _; simpa [keywordPhase] using he
  | cons r ks ih =>
    intro rank m e he hfresh
    have hne : ¬ e.id = r.id := fun h => hfresh r (by simp) (by rw [h])
    rw [keywordPhase]
    by_cases hany : m.any (fun x => x.id = r.id) = true
    · rw [if_pos hany]
      refine ih (rank + 1) _ e ?_ (fun k hk => hfresh k (by simp [hk]))
      have : (if e.id = r.id then addKwScore r rank e else e) = e := if_neg hne
      rw [← this]
      exact List.mem_map_of_mem _ he
    · rw [if_neg hany]
      exact ih (rank + 1) _ e (List.mem_append_left _ he) (fun k hk => hfresh k (by simp [hk]))

/-- Every id present after the keyword pass was present before it or
belongs to the keyword list. -/
theorem keywordPhase_ids_subset (ks : List SearchResult) :
    ∀ (rank : ℕ) (m : List HybridSearchResult) (x : HybridSearchResult),
      x ∈ keywordPhase ks rank m →
      x.id ∈ m.map (fun y => y.id) ∨ x.id ∈ ks.map (fun k => k.id) := by
  induction ks with
  | nil =>
    intro rank m x hx
    exact Or.inl (List.mem_map_of_mem _ (by simpa [keywordPhase] using hx))
  | cons r ks ih =>
    intro rank m x hx
    rw [keywordPhase] at hx
    by_cases hany : m.any (fun y => y.id = r.id) = true
    · rw [if_pos hany] at hx
      rcases ih (rank + 1) _ x hx with h | h
      · left
        obtain ⟨y, hy, hyx⟩ := List.mem_map.mp h
        obtain ⟨z, hz, hzy⟩ := List.mem_map.mp hy
        rw [← hyx, ← hzy]
        by_cases hzr : z.id = r.id
        · simpa [hzr, addKwScore_id] using List.mem_map_of_mem (fun y => y.id) hz
        · simpa [hzr] using List.mem_map_of_mem (fun y => y.id) hz
      · right
        simp [h]
    · rw [if_neg hany] at hx
      rcases ih (rank + 1) _ x hx with h | h
      · rw [List.map_append] at h
        rcases List.mem_append.mp h with h | h
        · exact Or.inl h
        · right
          simp at h
          simp [h, toHybridKw_id]
      · right
        simp [h]

/-- The keyword pass over a concatenation processes the two parts in
sequence, the rank counter advanced by the length of the first part. -/
theorem keywordPhase_append (l₁ l₂ : List SearchResult) :
    ∀ (rank : ℕ) (m : List HybridSearchResult),
      keywordPhase (l₁ ++ l₂) rank m =
        keywordPhase l₂ (rank + l₁.length) (keywordPhase l₁ rank m) := by
  induction l₁ with
  | nil => intro rank m; simp [keywordPhase]
  | cons r l₁ ih =>
    intro rank m
    rw [List.cons_append, keywordPhase, keywordPhase, ih (rank + 1)]
    have : rank + 1 + l₁.length = rank + (r :: l₁).length := by simp; omega
    rw [this]

/-- The keyword pass keeps the ids of the map free of duplicates. -/
theorem keywordPhase_ids_nodup (ks : List SearchResult) :
    ∀ (rank : ℕ) (m : List HybridSearchResult),
      (m.map (fun y => y.id)).Nodup →
      ((keywordPhase ks rank m).map (fun y => y.id)).Nodup := by
  induction ks with
  | nil => intro rank m h; simpa [keywordPhase] using h
  | cons r ks ih =>
    intro rank m h
    rw [keywordPhase]
    by_cases hany : m.any (fun y => y.id = r.id) = true
    · rw [if_pos hany]
      refine ih (rank + 1) _ ?_
      have hids : (m.map (fun x => if x.id = r.id then addKwScore r rank x else x)).map
          (fun y => y.id) = m.map (fun y => y.id) := by
        rw [List.map_map]
        refine List.map_congr_left ?_
        intro x _
        by_cases hx : x.id = r.id
        · simp [hx, addKwScore_id]
        · simp [hx]
      rw [hids]
      exact h
    · rw [if_neg hany]
      refine ih (rank + 1) _ ?_
      rw [List.map_append, List.nodup_append]
      refine ⟨h, by simp, ?_⟩
      intro a ha hb
      simp [toHybridKw_id] at hb
      have hany2 : m.any (fun y => y.id = r.id) = false := by simpa using hany
      have hany3 := List.any_eq_false.mp hany2
      obtain ⟨y, hy, hyid⟩ := List.mem_map.mp ha
      rw [hb] at hyid
      have hcontra : ¬ y.id = r.id := by simpa using hany3 y hy
      exact hcontra hyid

/-- Claim C1 — for input ranked lists with duplicate-free ids, the fusion
output assigns the id at vector rank i and keyword rank j the fused score
1/(60+i+1) + 1/(60+j+1), assigns an id occurring in only one list at rank
i exactly 1/(60+i+1), carries each id once, and is sorted in descending
order of the fused score. -/
theorem rrf_fusion_spec (vec kw : List SearchResult)
    (hv : (vec.map (fun r => r.id)).Nodup) (hk : (kw.map (fun r => r.id)).Nodup) :
    (∀ (i : ℕ) (hi : i < vec.length) (j : ℕ) (hj : j < kw.length),
        (vec.get ⟨i, hi⟩).id = (kw.get ⟨j, hj⟩).id →
        ∃ x ∈ reciprocalRankFusion vec kw,
          x.id = (vec.get ⟨i, hi⟩).id ∧
          x.rrfScore = 1 / (60 + (i : ℚ) + 1) + 1 / (60 + (j : ℚ) + 1)) ∧
    (∀ (i : ℕ) (hi : i < vec.length),
        (vec.get ⟨i, hi⟩).id ∉ kw.map (fun r => r.id) →
        ∃ x ∈ reciprocalRankFusion vec kw,
          x.id = (vec.get ⟨i, hi⟩).id ∧ x.rrfScore = 1 / (60 + (i : ℚ) + 1)) ∧
    (∀ (j : ℕ) (hj : j < kw.length),
        (kw.get ⟨j, hj⟩).id ∉ vec.map (fun r => r.id) →
        ∃ x ∈ reciprocalRankFusion vec kw,
          x.id = (kw.get ⟨j, hj⟩).id ∧ x.rrfScore = 1 / (60 + (j : ℚ) + 1)) ∧
    ((reciprocalRankFusion vec kw).map (fun x => x.id)).Nodup ∧
    List.Sorted (fun a b => b.rrfScore ≤ a.rrfScore) (reciprocalRankFusion vec kw) := by
  have hbase : vectorPhase vec 0 [] = vectorEntries vec 0 := by
    have := vectorPhase_eq vec 0 [] (by intro r _ x hx; simp at hx) hv
    simpa using this
  have hmem_iff : ∀ x : HybridSearchResult,
      x ∈ reciprocalRankFusion vec kw ↔ x ∈ keywordPhase kw 0 (vectorEntries vec 0) := by
    intro x
    rw [reciprocalRankFusion, hbase]
    exact (List.perm_insertionSort hybridGE _).mem_iff
  refine ⟨?_, ?_, ?_, ?_, ?_⟩
  · intro i hi j hj heq
    have he : toHybridVec (vec.get ⟨i, hi⟩) i ∈ vectorEntries vec 0 := by
      have := vectorEntries_mem vec 0 i hi
      simpa using this
    have hjlen : (kw.take j).length = j := by
      simp [List.length_take]
      omega
    have hsplit : kw = kw.take j ++ (kw.get ⟨j, hj⟩ :: kw.drop (j + 1)) := by
      conv_lhs => rw [← List.take_append_drop j kw]
      congr 1
      rw [List.drop_eq_getElem_cons hj]
      rfl
    have hstep : keywordPhase kw 0 (vectorEntries vec 0) =
        keywordPhase (kw.get ⟨j, hj⟩ :: kw.drop (j + 1)) j
          (keywordPhase (kw.take j) 0 (vectorEntries vec 0)) := by
      conv_lhs => rw [hsplit]
      rw [keywordPhase_append, hjlen]
      simp
    have hem1 : toHybridVec (vec.get ⟨i, hi⟩) i ∈
        keywordPhase (kw.take j) 0 (vectorEntries vec 0) := by
      refine keywordPhase_mem_preserved _ _ _ _ he ?_
      intro k hkmem
      obtain ⟨j2, hj2, hj2lt, hj2eq⟩ := mem_take_index hkmem
      rw [toHybridVec_id, heq, ← hj2eq]
      exact nodup_map_get_ne hk hj2 hj (by omega)
    have heqE : (vec.get ⟨i, hi⟩).id = (kw.get ⟨j, hj⟩).id := heq
    have hany : (keywordPhase (kw.take j) 0 (vectorEntries vec 0)).any
        (fun x => x.id = (kw.get ⟨j, hj⟩).id) = true := by
      rw [List.any_eq_true]
      refine ⟨_, hem1, ?_⟩
      simp only [toHybridVec_id, decide_eq_true_eq]
      exact heqE
    have hx0m2 : addKwScore (kw.get ⟨j, hj⟩) j (toHybridVec (vec.get ⟨i, hi⟩) i) ∈
        (keywordPhase (kw.take j) 0 (vectorEntries vec 0)).map
          (fun x => if x.id = (kw.get ⟨j, hj⟩).id then addKwScore (kw.get ⟨j, hj⟩) j x else x) := by
      refine List.mem_map.mpr ⟨toHybridVec (vec.get ⟨i, hi⟩) i, hem1, ?_⟩
      simp only [toHybridVec_id]
      rw [if_pos heqE]
    have hx0fin : addKwScore (kw.get ⟨j, hj⟩) j (toHybridVec (vec.get ⟨i, hi⟩) i) ∈
        keywordPhase kw 0 (vectorEntries vec 0) := by
      rw [hstep, keywordPhase, if_pos hany]
      refine keywordPhase_mem_preserved _ _ _ _ hx0m2 ?_
      intro k hkmem
      obtain ⟨j2, hj2, hj2ge, hj2eq⟩ := mem_drop_index hkmem
      rw [addKwScore_id, toHybridVec_id, heq, ← hj2eq]
      exact nodup_map_get_ne hk hj2 hj (by omega)
    refine ⟨addKwScore (kw.get ⟨j, hj⟩) j (toHybridVec (vec.get ⟨i, hi⟩) i),
      (hmem_iff _).mpr hx0fin, rfl, ?_⟩
    show rrfContrib i + rrfContrib j = _
    rw [rrfContrib, rrfContrib, rrfK]
  · intro i hi hnot
    have he : toHybridVec (vec.get ⟨i, hi⟩) i ∈ vectorEntries vec 0 := by
      have := vectorEntries_mem vec 0 i hi
      simpa using this
    have hefin : toHybridVec (vec.get ⟨i, hi⟩) i ∈ keywordPhase kw 0 (vectorEntries vec 0) := by
      refine keywordPhase_mem_preserved _ _ _ _ he ?_
      intro k hkmem hkid
      rw [toHybridVec_id] at hkid
      exact hnot (hkid ▸ List.mem_map_of_mem _ hkmem)
    refine ⟨toHybridVec (vec.get ⟨i, hi⟩) i, (hmem_iff _).mpr hefin, rfl, ?_⟩
    show rrfContrib i = _
    rw [rrfContrib, rrfK]
  · intro j hj hnot
    have hjlen : (kw.take j).length = j := by
      simp [List.length_take]
      omega
    have hsplit : kw = kw.take j ++ (kw.get ⟨j, hj⟩ :: kw.drop (j + 1)) := by
      conv_lhs => rw [← List.take_append_drop j kw]
      congr 1
      rw [List.drop_eq_getElem_cons hj]
      rfl
    have hstep : keywordPhase kw 0 (vectorEntries vec 0) =
        keywordPhase (kw.get ⟨j, hj⟩ :: kw.drop (j + 1)) j
          (keywordPhase (kw.take j) 0 (vectorEntries vec 0)) := by
      conv_lhs => rw [hsplit]
      rw [keywordPhase_append, hjlen]
      simp
    have hany : (keywordPhase (kw.take j) 0 (vectorEntries vec 0)).any
        (fun x => x.id = (kw.get ⟨j, hj⟩).id) = false := by
      rw [List.any_eq_false]
      intro x hx
      simp only [decide_eq_true_eq]
      intro hxid
      rcases keywordPhase_ids_subset (kw.take j) 0 _ x hx with hin | hin
      · rw [vectorEntries_ids] at hin
        rw [hxid] at hin
        exact hnot hin
      · obtain ⟨y, hy, hyid⟩ := List.mem_map.mp hin
        obtain ⟨j2, hj2, hj2lt, hj2eq⟩ := mem_take_index hy
        rw [hxid] at hyid
        exact nodup_map_get_ne hk hj2 hj (by omega) (by rw [hj2eq]; exact hyid)
    have hx0fin : toHybridKw (kw.get ⟨j, hj⟩) j ∈ keywordPhase kw 0 (vectorEntries vec 0) := by
      rw [hstep, keywordPhase, if_neg (by rw [hany]; exact Bool.false_ne_true)]
      refine keywordPhase_mem_preserved _ _ _ _ (List.mem_append_right _ (by simp)) ?_
      intro k hkmem
      obtain ⟨j2, hj2, hj2ge, hj2eq⟩ := mem_drop_index hkmem
      rw [toHybridKw_id, ← hj2eq]
      exact nodup_map_get_ne hk hj2 hj (by omega)
    refine ⟨toHybridKw (kw.get ⟨j, hj⟩) j, (hmem_iff _).mpr hx0fin, rfl, ?_⟩
    show rrfContrib j = _
    rw [rrfContrib, rrfK]
  · have hbn : ((vectorEntries vec 0).map (fun y => y.id)).Nodup := by
      rw [vectorEntries_ids]
      exact hv
    have hnd := keywordPhase_ids_nodup kw 0 _ hbn
    rw [reciprocalRankFusion, hbase]
    have hperm := (List.perm_insertionSort hybridGE
      (keywordPhase kw 0 (vectorEntries vec 0))).map (fun y => y.id)
    exact hperm.nodup_iff.mpr hnd
  · exact List.sorted_insertionSort hybridGE _

/-- Concrete ranked lists for the C1 witness: ids a and b ranked by the
vector list, ids b and c ranked by the keyword list. -/
def vecW : List SearchResult :=
  [{ id := "a", content := "", score := 9/10, category := "", source := Source.vector },
   { id := "b", content := "", score := 8/10, category := "", source := Source.vector }]

def kwW : List SearchResult :=
  [{ id := "b", content := "", score := 7/10, category := "", source := Source.keyword },
   { id := "c", content := "", score := 6/10, category := "", source := Source.keyword }]

/-- Witness for C1 at the concrete ranked lists. -/
theorem rrf_fusion_spec_witness :
    (vecW.map (fun r => r.id)).Nodup ∧ (kwW.map (fun r => r.id)).Nodup ∧
    ((reciprocalRankFusion vecW kwW).map (fun x => x.id)).Nodup ∧
    List.Sorted (fun a b => b.rrfScore ≤ a.rrfScore) (reciprocalRankFusion vecW kwW) :=
  ⟨by decide, by decide,
   (rrf_fusion_spec vecW kwW (by decide) (by decide)).2.2.2.1,
   (rrf_fusion_spec vecW kwW (by decide) (by decide)).2.2.2.2⟩

/-! ## Reranker failure semantics (C5) and the rerank truncation quirk (C10) -/

/-- Claim C5 — when the reranker collaborator call errors, the search
still returns a result (the exception is swallowed), and the returned
list is exactly the pre-rerank fused ranking truncated to topK. -/
theorem reranker_error_returns_fused (vec kw : List SearchResult) (topK : ℕ) :
    hybridSearchResults vec kw true (Except.error ()) topK =
      (reciprocalRankFusion vec kw).take topK := by
  simp only [hybridSearchResults]
  split
  · rfl
  · rfl

theorem rerankBlend_length (scores : List ℚ) :
    ∀ (l : List HybridSearchResult) (i : ℕ), (rerankBlend scores l i).length = l.length := by
  intro l
  induction l with
  | nil => intro i; rfl
  | cons r rs ih => intro i; simp [rerankBlend, ih (i + 1)]

/-- Claim C10 — with the reranker enabled and succeeding, a fused
candidate list longer than 10 and a requested topK above 10 yield exactly
10 results: candidates ranked below the top 10 are discarded by the
rerank slice, so fewer than topK results are returned. -/
theorem rerank_truncates_to_ten (vec kw : List SearchResult) (scores : List ℚ) (topK : ℕ)
    (hlen : rerankTop < (reciprocalRankFusion vec kw).length) (htopK : rerankTop < topK) :
    (hybridSearchResults vec kw true (Except.ok scores) topK).length = rerankTop ∧
    (hybridSearchResults vec kw true (Except.ok scores) topK).length < topK := by
  have hne : reciprocalRankFusion vec kw ≠ [] := by
    intro h
    rw [h] at hlen
    simp [rerankTop] at hlen
  simp only [hybridSearchResults]
  rw [if_pos ⟨trivial, hne⟩]
  have hlen10 : (List.insertionSort hybridGE
      (rerankBlend scores ((reciprocalRankFusion vec kw).take rerankTop) 0)).length = rerankTop := by
    rw [(List.perm_insertionSort hybridGE _).length_eq, rerankBlend_length, List.length_take]
    omega
  rw [List.length_take, hlen10]
  omega

/-- Eleven distinct vector results for the C10 witness. -/
def vecW11 : List SearchResult :=
  ["a", "b", "c", "d", "e", "f", "g", "h", "i", "j", "k"].map
    (fun s => { id := s, content := "", score := 1/2, category := "", source := Source.vector })

/-- Witness for C10 at a concrete search with eleven fused candidates and
topK = 11. -/
theorem rerank_truncates_to_ten_witness :
    rerankTop < (reciprocalRankFusion vecW11 []).length ∧ rerankTop < 11 ∧
    ((hybridSearchResults vecW11 [] true (Except.ok []) 11).length = rerankTop ∧
     (hybridSearchResults vecW11 [] true (Except.ok []) 11).length < 11) :=
  ⟨by decide, by decide, rerank_truncates_to_ten vecW11 [] [] 11 (by decide) (by decide)⟩

/-! ## /search request validation (C4) -/

/-- Counterexample to C4 as stated: a request with topK = 0 is not
rejected; the JS-falsy default body.topK or 5 silently replaces 0 by 5
and the search (and hence the embedding call) proceeds. -/
theorem topK_zero_not_rejected :
    handleSearchRequest (some "hello") (some 0) = SearchRequestOutcome.performSearch "hello" 5 ∧
    handleSearchRequest (some "hello") (some 0) ≠
      SearchRequestOutcome.validationError "topK must be between 1 and 20" := by
  constructor
  · rfl
  · decide

/-- Claim C4 (amended) — a missing or empty query is rejected as a
validation error before the search (and its embedding call) runs; every
requested topK outside [1, 20] other than 0 is rejected; topK = 0 is
treated as an absent field and defaults to 5, so that request performs a
search with topK 5 instead of being rejected. -/
theorem search_validation_amended (q : String) (k : ℚ) (hq : q ≠ "")
    (hout : k < 1 ∨ 20 < k) (hk0 : k ≠ 0) :
    handleSearchRequest none (some k) =
      SearchRequestOutcome.validationError "Missing query field in request body" ∧
    handleSearchRequest (some "") (some k) =
      SearchRequestOutcome.validationError "Missing query field in request body" ∧
    handleSearchRequest (some q) (some k) =
      SearchRequestOutcome.validationError "topK must be between 1 and 20" ∧
    handleSearchRequest (some q) (some 0) = SearchRequestOutcome.performSearch q 5 := by
  refine ⟨rfl, rfl, ?_, ?_⟩
  · simp only [handleSearchRequest, if_neg hq, if_neg hk0]
    rw [if_pos hout]
  · simp only [handleSearchRequest, if_neg hq]
    norm_num

/-- Witness for the amended C4 at query hello and topK 25. -/
theorem search_validation_amended_witness :
    ("hello" : String) ≠ "" ∧ ((25 : ℚ) < 1 ∨ 20 < (25 : ℚ)) ∧ (25 : ℚ) ≠ 0 ∧
    (handleSearchRequest none (some 25) =
       SearchRequestOutcome.validationError "Missing query field in request body" ∧
     handleSearchRequest (some "") (some 25) =
       SearchRequestOutcome.validationError "Missing query field in request body" ∧
     handleSearchRequest (some "hello") (some 25) =
       SearchRequestOutcome.validationError "topK must be between 1 and 20" ∧
     handleSearchRequest (some "hello") (some 0) = SearchRequestOutcome.performSearch "hello" 5) :=
  ⟨by decide, Or.inr (by decide), by decide,
   search_validation_amended "hello" 25 (by decide) (Or.inr (by decide)) (by decide)⟩

/-! ## BM25 scoring unit mismatch (C2) -/

/-- The score the claim describes: idf times tf_component with the chunk
length measured in tokens, the same unit in which the indexer maintains
the corpus average chunk length. -/
def bm25SameUnitScore (lg : ℚ → ℚ) (n df tf chunkTokens : ℕ) (avgLen : ℚ) : ℚ :=
  lg (idfArg n df) * tfComponent tf (chunkTokens : ℚ) avgLen

/-- A store holding the single indexed chunk with content cat dog:
7 characters, 2 tokens. -/
def docRowC2 : DocRow :=
  { id := "d-chunk-0", content := "cat dog", category := "", chunkIndex := 0,
    parentId := "d", wordCount := 2 }

def storeC2 : KWStore :=
  indexDocument { emptyStore with docs := [docRowC2] } "d-chunk-0" "cat dog"

/-- Claim C2 (code bug demonstration) — the keyword search scores the
chunk with docLength = LENGTH(content) = 7 characters while the corpus
average maintained by the indexer is 2 tokens, so the computed score
differs from the claim formula in which chunkLen and avgLen share the
token unit (whenever the idf factor is non-zero). -/
theorem bm25_unit_mismatch (lg : ℚ → ℚ) (hlg : lg (idfArg 1 1) ≠ 0) :
    keywordSearch lg storeC2 "cat" 5 =
      [{ id := "d-chunk-0", content := "cat dog",
         score := lg (idfArg 1 1) * tfComponent 1 ((("cat dog" : String).length : ℕ) : ℚ) 2,
         category := "", source := Source.keyword }] ∧
    (tokenize "cat dog").length = 2 ∧
    ("cat dog" : String).length = 7 ∧
    lg (idfArg 1 1) * tfComponent 1 ((("cat dog" : String).length : ℕ) : ℚ) 2 ≠
      bm25SameUnitScore lg 1 1 1 (tokenize "cat dog").length 2 := by
  refine ⟨rfl, by decide, by decide, ?_⟩
  intro h
  rw [bm25SameUnitScore] at h
  have h7 : tfComponent 1 ((("cat dog" : String).length : ℕ) : ℚ) 2 = 44 / 89 := by decide
  have h2 : tfComponent 1 (((tokenize "cat dog").length : ℕ) : ℚ) 2 = 1 := by decide
  rw [h7, h2] at h
  have hc := mul_left_cancel₀ hlg h
  norm_num at hc

/-- Witness for C2 with the identity function in place of Math.log. -/
theorem bm25_unit_mismatch_witness :
    (id (idfArg 1 1) : ℚ) ≠ 0 ∧
    (keywordSearch id storeC2 "cat" 5 =
      [{ id := "d-chunk-0", content := "cat dog",
         score := id (idfArg 1 1) * tfComponent 1 ((("cat dog" : String).length : ℕ) : ℚ) 2,
         category := "", source := Source.keyword }] ∧
     (tokenize "cat dog").length = 2 ∧
     ("cat dog" : String).length = 7 ∧
     id (idfArg 1 1) * tfComponent 1 ((("cat dog" : String).length : ℕ) : ℚ) 2 ≠
       bm25SameUnitScore id 1 1 1 (tokenize "cat dog").length 2) :=
  ⟨by decide, bm25_unit_mismatch id (by decide)⟩

/-! ## BM25 monotonicity (C9) -/

theorem bm25_length_term_pos {docLen avgLen : ℚ} (havg : 0 < avgLen) (hdoc : 0 ≤ docLen) :
    0 < bm25K1 * (1 - bm25B + bm25B * (docLen / avgLen)) := by
  have hdl : 0 ≤ docLen / avgLen := div_nonneg hdoc (le_of_lt havg)
  rw [bm25K1, bm25B]
  nlinarith [hdl]

theorem idfArg_gt_one {n df : ℕ} (hdfn : df ≤ n) : (1 : ℚ) < idfArg n df := by
  rw [idfArg]
  have hn : (df : ℚ) ≤ (n : ℚ) := by exact_mod_cast hdfn
  have hdfq : (0 : ℚ) ≤ (df : ℚ) := Nat.cast_nonneg df
  have hden : (0 : ℚ) < (df : ℚ) + 1 / 2 := by linarith
  have hnum : (0 : ℚ) < (n : ℚ) - (df : ℚ) + 1 / 2 := by linarith
  have := div_pos hnum hden
  linarith

/-- Claim C9 — with the logarithm modelled by any function that is
positive above 1 and strictly monotone on positives (as Math.log is), the
per-term BM25 contribution idf * tf_component is non-decreasing in the
term frequency (chunk length, average length and N fixed) and strictly
decreasing in the document frequency over 0 < df1 < df2 <= N (tf >= 1
fixed): rarer terms score higher. -/
theorem bm25_monotonicity (lg : ℚ → ℚ)
    (hmono : ∀ x y : ℚ, 0 < x → x < y → lg x < lg y)
    (hpos : ∀ x : ℚ, 1 < x → 0 < lg x)
    (n df df1 df2 tf tf1 tf2 : ℕ) (docLen avgLen : ℚ)
    (havg : 0 < avgLen) (hdoc : 0 ≤ docLen) (hdfn : df ≤ n)
    (htf12 : tf1 ≤ tf2) (hdf1 : 0 < df1) (hdf12 : df1 < df2) (hdf2n : df2 ≤ n)
    (htf : 1 ≤ tf) :
    bm25Score lg n df tf1 docLen avgLen ≤ bm25Score lg n df tf2 docLen avgLen ∧
    bm25Score lg n df2 tf docLen avgLen < bm25Score lg n df1 tf docLen avgLen := by
  have hc := bm25_length_term_pos havg hdoc
  constructor
  · have hlgnn : 0 ≤ lg (idfArg n df) := le_of_lt (hpos _ (idfArg_gt_one hdfn))
    have htfc : tfComponent tf1 docLen avgLen ≤ tfComponent tf2 docLen avgLen := by
      rw [tfComponent, tfComponent]
      have ht12 : (tf1 : ℚ) ≤ (tf2 : ℚ) := by exact_mod_cast htf12
      have ht1 : (0 : ℚ) ≤ (tf1 : ℚ) := Nat.cast_nonneg tf1
      have hd1 : (0 : ℚ) < (tf1 : ℚ) + bm25K1 * (1 - bm25B + bm25B * (docLen / avgLen)) := by
        linarith
      have hd2 : (0 : ℚ) < (tf2 : ℚ) + bm25K1 * (1 - bm25B + bm25B * (docLen / avgLen)) := by
        linarith
      rw [div_le_div_iff hd1 hd2]
      have hk : (0 : ℚ) < bm25K1 + 1 := by rw [bm25K1]; norm_num
      have hkey := mul_le_mul_of_nonneg_left ht12 (le_of_lt (mul_pos hk hc))
      nlinarith [hkey]
    rw [bm25Score, bm25Score]
    exact mul_le_mul_of_nonneg_left htfc hlgnn
  · have harg2 : (1 : ℚ) < idfArg n df2 := idfArg_gt_one hdf2n
    have hlt : idfArg n df2 < idfArg n df1 := by
      rw [idfArg, idfArg]
      have hd12 : (df1 : ℚ) < (df2 : ℚ) := by exact_mod_cast hdf12
      have hd2n : (df2 : ℚ) ≤ (n : ℚ) := by exact_mod_cast hdf2n
      have hd1q : (0 : ℚ) < (df1 : ℚ) := by exact_mod_cast hdf1
      have hden1 : (0 : ℚ) < (df1 : ℚ) + 1 / 2 := by linarith
      have hden2 : (0 : ℚ) < (df2 : ℚ) + 1 / 2 := by linarith
      have hkey : ((n : ℚ) - df2 + 1 / 2) / ((df2 : ℚ) + 1 / 2) <
          ((n : ℚ) - df1 + 1 / 2) / ((df1 : ℚ) + 1 / 2) := by
        rw [div_lt_div_iff hden2 hden1]
        nlinarith [hd12, hd2n, hd1q]
      linarith
    have hlg : lg (idfArg n df2) < lg (idfArg n df1) :=
      hmono _ _ (lt_trans zero_lt_one harg2) hlt
    have htfcpos : 0 < tfComponent tf docLen avgLen := by
      rw [tfComponent]
      have ht1 : (1 : ℚ) ≤ (tf : ℚ) := by exact_mod_cast htf
      have hnum : (0 : ℚ) < (tf : ℚ) * (bm25K1 + 1) := by
        rw [bm25K1]
        nlinarith [ht1]
      have hden : (0 : ℚ) < (tf : ℚ) + bm25K1 * (1 - bm25B + bm25B * (docLen / avgLen)) := by
        linarith
      exact div_pos hnum hden
    rw [bm25Score, bm25Score]
    exact mul_lt_mul_of_pos_right hlg htfcpos

/-- Witness for C9 with the identity function in place of Math.log. -/
theorem bm25_monotonicity_witness :
    (0 : ℚ) < 2 ∧ (0 : ℚ) ≤ 3 ∧ (1 : ℕ) ≤ 2 ∧ (1 : ℕ) ≤ 3 ∧ (0 : ℕ) < 1 ∧ (1 : ℕ) < 2 ∧
    (2 : ℕ) ≤ 2 ∧ (1 : ℕ) ≤ 1 ∧
    (bm25Score id 2 1 1 3 2 ≤ bm25Score id 2 1 3 3 2 ∧
     bm25Score id 2 2 1 3 2 < bm25Score id 2 1 1 3 2) :=
  ⟨by decide, by decide, by decide, by decide, by decide, by decide, by decide, by decide,
   bm25_monotonicity id (fun _ _ _ h => h) (fun x h => lt_trans zero_lt_one h)
     2 1 1 2 1 1 3 3 2 (by decide) (by decide) (by decide) (by decide) (by decide)
     (by decide) (by decide) (by decide)⟩

/-! ## Ingestion partial failure (C3) -/

/-- A two-chunk document: a 520-character paragraph and a 100-character
paragraph chunk to [520 chars, 178 chars]. -/
def docC3 : Doc :=
  { id := "doc",
    content := String.mk (List.replicate 520 'a') ++ "\n\n" ++ String.mk (List.replicate 100 'b'),
    title := "", source := "", category := "" }

/-- An embedding collaborator that succeeds on the first chunk (520
characters) and fails on the second. -/
def embedFailC3 : String → Bool := fun s => s.length == 520

/-- Claim C3 (code bug demonstration) — when the embedding call fails on
the second of two chunks, the ingestion aborts with both chunk rows
persisted and lexically indexed (two documents rows, three keyword
postings) and no vector ever upserted: the document is neither fully
processed nor absent, exactly the state the claim forbids. -/
theorem ingest_partial_failure_state :
    (ingest embedFailC3 docC3 emptySys).isOk = false ∧
    (okOf (ingest embedFailC3 docC3 emptySys)).vec = [] ∧
    (okOf (ingest embedFailC3 docC3 emptySys)).kw.docs.map (fun r => r.id) =
      [chunkId "doc" 0, chunkId "doc" 1] ∧
    (okOf (ingest embedFailC3 docC3 emptySys)).kw.keywords.length = 3 :=
  ⟨by decide, by decide, by decide, by decide⟩

/-! ## Re-ingestion overwrites (C6) -/

/-- The state a fully successful ingestion produces. -/
def ingestPure (doc : Doc) (s : SysState) : SysState :=
  let s0 := if s.kw.docs.any (docMatches doc.id) then deleteDoc doc.id s else s
  let s1 := (chunk doc.content doc.id).foldl (processChunk doc) s0
  { s1 with vec := upsertList s1.vec ((chunk doc.content doc.id).map (vecEntryOf doc)) }

theorem ingestLoop_ok_eq (emb : String → Bool) (doc : Doc) :
    ∀ (cs : List Chunk) (s : SysState) (vs : List VecEntry) (s1 : SysState) (vs1 : List VecEntry),
      ingestLoop emb doc cs s vs = Except.ok (s1, vs1) →
      s1 = cs.foldl (processChunk doc) s ∧ vs1 = vs ++ cs.map (vecEntryOf doc) := by
  intro cs
  induction cs with
  | nil =>
    intro s vs s1 vs1 h
    rw [ingestLoop] at h
    injection h with h2
    injection h2 with ha hb
    simp [← ha, ← hb]
  | cons c cs ih =>
    intro s vs s1 vs1 h
    rw [ingestLoop] at h
    by_cases hemb : emb c.content = true
    · rw [if_pos hemb] at h
      obtain ⟨ha, hb⟩ := ih _ _ _ _ h
      refine ⟨ha, ?_⟩
      rw [hb]
      simp
    · rw [if_neg hemb] at h
      exact absurd h (by simp)

theorem processChunk_docs (doc : Doc) (s : SysState) (c : Chunk) :
    (processChunk doc s c).kw.docs = s.kw.docs ++ [docRowOf doc c] := rfl

theorem processChunk_vec (doc : Doc) (s : SysState) (c : Chunk) :
    (processChunk doc s c).vec = s.vec := rfl

theorem foldl_processChunk_docs (doc : Doc) :
    ∀ (cs : List Chunk) (s : SysState),
      (cs.foldl (processChunk doc) s).kw.docs = s.kw.docs ++ cs.map (docRowOf doc) := by
  intro cs
  induction cs with
  | nil => intro s; simp
  | cons c cs ih =>
    intro s
    rw [List.foldl_cons, ih, processChunk_docs]
    simp

theorem foldl_processChunk_vec (doc : Doc) :
    ∀ (cs : List Chunk) (s : SysState), (cs.foldl (processChunk doc) s).vec = s.vec := by
  intro cs
  induction cs with
  | nil => intro s; rfl
  | cons c cs ih =>
    intro s
    rw [List.foldl_cons, ih, processChunk_vec]

theorem ingest_ok_eq (emb : String → Bool) (doc : Doc) (s s2 : SysState)
    (h : ingest emb doc s = Except.ok s2) : s2 = ingestPure doc s := by
  rw [ingest] at h
  rcases heq : ingestLoop emb doc (chunk doc.content doc.id)
      (if s.kw.docs.any (docMatches doc.id) then deleteDoc doc.id s else s) [] with
    hE | ⟨s1, vs⟩
  · rw [heq] at h
    exact absurd h (by simp)
  · rw [heq] at h
    obtain ⟨ha, hb⟩ := ingestLoop_ok_eq emb doc _ _ _ _ _ heq
    have hvs : vs ≠ [] := by
      rw [hb]
      simp only [List.nil_append, ne_eq, List.map_eq_nil_iff]
      intro hnil
      have := (chunk_ok doc.content doc.id).1
      rw [hnil] at this
      simp at this
    have h3 : (if vs = [] then s1 else
        { kw := s1.kw, vec := upsertList s1.vec vs } : SysState) = s2 := by
      have h2 : (Except.ok
          (if vs = [] then s1 else { kw := s1.kw, vec := upsertList s1.vec vs }) :
          Except SysState SysState) = Except.ok s2 := h
      injection h2
    rw [if_neg hvs] at h3
    simp only [ingestPure]
    rw [← h3, ha, hb]
    simp

/-- An id of the shape documentId ++ "-chunk-" ++ ordinal. -/
def isChunkIdOf (X : String) (s : String) : Prop := ∃ i : ℕ, s = chunkId X i

/-- A system state holding nothing of document X: no documents row with
id or parent X, no row and no vector entry with an X chunk id. -/
def CleanFor (X : String) (s : SysState) : Prop :=
  (∀ r ∈ s.kw.docs, docMatches X r = false ∧ ¬ isChunkIdOf X r.id) ∧
  (∀ v ∈ s.vec, ¬ isChunkIdOf X v.id)

theorem chunk_mem_fields {t X : String} {c : Chunk} (h : c ∈ chunk t X) :
    c.parentId = X ∧ c.id = chunkId X c.chunkIndex := by
  obtain ⟨⟨k, hk⟩, hget⟩ := List.mem_iff_get.mp h
  obtain ⟨_, hok⟩ := chunk_ok t X
  obtain ⟨hid, hp, hx⟩ := hok k hk
  rw [← hget]
  refine ⟨hp, ?_⟩
  rw [hid, hx]

theorem chunk_ids_nodup (t X : String) : ((chunk t X).map (fun c => c.id)).Nodup := by
  rw [List.nodup_iff_injective_get]
  intro a b hab
  obtain ⟨_, hok⟩ := chunk_ok t X
  have ha : a.1 < (chunk t X).length := lt_of_lt_of_eq a.2 (List.length_map _ _)
  have hb : b.1 < (chunk t X).length := lt_of_lt_of_eq b.2 (List.length_map _ _)
  have hga : (List.map (fun c => c.id) (chunk t X)).get a = chunkId X a.1 := by
    rw [List.get_map]
    exact (hok a.1 ha).1
  have hgb : (List.map (fun c => c.id) (chunk t X)).get b = chunkId X b.1 := by
    rw [List.get_map]
    exact (hok b.1 hb).1
  rw [hga, hgb] at hab
  exact Fin.ext (chunkId_inj X hab)

theorem mem_upsertOne {m : List VecEntry} {v0 v : VecEntry} (h : v ∈ upsertOne m v0) :
    v ∈ m ∨ v = v0 := by
  rw [upsertOne] at h
  by_cases hany : m.any (fun x => x.id = v0.id) = true
  · rw [if_pos hany] at h
    obtain ⟨x, hx, hxv⟩ := List.mem_map.mp h
    by_cases hid : x.id = v0.id
    · rw [if_pos hid] at hxv
      exact Or.inr hxv.symm
    · rw [if_neg hid] at hxv
      exact Or.inl (hxv ▸ hx)
  · rw [if_neg hany] at h
    rcases List.mem_append.mp h with h | h
    · exact Or.inl h
    · exact Or.inr (by simpa using h)

theorem mem_upsertList {vs : List VecEntry} :
    ∀ {m : List VecEntry} {v : VecEntry}, v ∈ upsertList m vs → v ∈ m ∨ v ∈ vs := by
  induction vs with
  | nil => intro m v h; exact Or.inl (by simpa [upsertList] using h)
  | cons v0 vs ih =>
    intro m v h
    rcases ih (by simpa [upsertList] using h) with h2 | h2
    · rcases mem_upsertOne h2 with h3 | h3
      · exact Or.inl h3
      · exact Or.inr (by simp [h3])
    · exact Or.inr (by simp [h2])

theorem upsertOne_preserves {m : List VecEntry} {v w : VecEntry} (hv : v ∈ m)
    (hne : w.id ≠ v.id) : v ∈ upsertOne m w := by
  rw [upsertOne]
  by_cases hany : m.any (fun x => x.id = w.id) = true
  · rw [if_pos hany]
    refine List.mem_map.mpr ⟨v, hv, ?_⟩
    rw [if_neg (fun h => hne h.symm)]
  · rw [if_neg hany]
    exact List.mem_append_left _ hv

theorem upsertList_preserves {vs : List VecEntry} :
    ∀ {m : List VecEntry} {v : VecEntry}, v ∈ m → (∀ w ∈ vs, w.id ≠ v.id) →
      v ∈ upsertList m vs := by
  induction vs with
  | nil => intro m v hv _; simpa [upsertList] using hv
  | cons w vs ih =>
    intro m v hv hfresh
    have h1 : v ∈ upsertOne m w := upsertOne_preserves hv (hfresh w (by simp))
    have := ih h1 (fun w2 hw2 => hfresh w2 (by simp [hw2]))
    simpa [upsertList] using this

theorem mem_upsertOne_self {m : List VecEntry} (v : VecEntry) : v ∈ upsertOne m v := by
  rw [upsertOne]
  by_cases hany : m.any (fun x => x.id = v.id) = true
  · rw [if_pos hany]
    obtain ⟨x, hx, hxid⟩ := List.any_eq_true.mp hany
    refine List.mem_map.mpr ⟨x, hx, ?_⟩
    rw [if_pos (by simpa using hxid)]
  · rw [if_neg hany]
    exact List.mem_append_right _ (by simp)

theorem mem_upsertList_of_mem {vs : List VecEntry} (hnd : (vs.map (fun v => v.id)).Nodup) :
    ∀ {v : VecEntry}, v ∈ vs → ∀ m : List VecEntry, v ∈ upsertList m vs := by
  induction vs with
  | nil => intro v hv; simp at hv
  | cons w vs ih =>
    intro v hv m
    rcases List.mem_cons.mp hv with hv | hv
    · subst hv
      have h1 : v ∈ upsertOne m v := mem_upsertOne_self v
      have hfresh : ∀ w2 ∈ vs, w2.id ≠ v.id := by
        intro w2 hw2 hid
        have : v.id ∈ vs.map (fun v => v.id) := by
          rw [← hid]
          exact List.mem_map_of_mem _ hw2
        simp at hnd
        exact hnd.1 w2 hw2 hid
      have := upsertList_preserves h1 hfresh
      simpa [upsertList] using this
    · have := ih (by simpa using hnd.of_cons) hv (upsertOne m w)
      simpa [upsertList] using this

theorem addRow_pairs {lg : ℚ → ℚ} {n : ℕ} {avg : ℚ} {m : List ScoreEntry} {row : JoinRow}
    {e : ScoreEntry} (h : e ∈ addRow lg n avg m row) :
    (∃ x ∈ m, e.id = x.id ∧ e.content = x.content) ∨
    (e.id = row.id ∧ e.content = row.content) := by
  simp only [addRow] at h
  by_cases hany : m.any (fun x => x.id = row.id) = true
  · rw [if_pos hany] at h
    obtain ⟨x, hx, hxe⟩ := List.mem_map.mp h
    by_cases hid : x.id = row.id
    · rw [if_pos hid] at hxe
      exact Or.inl ⟨x, hx, by rw [← hxe], by rw [← hxe]⟩
    · rw [if_neg hid] at hxe
      exact Or.inl ⟨x, hx, by rw [← hxe], by rw [← hxe]⟩
  · rw [if_neg hany] at h
    rcases List.mem_append.mp h with h | h
    · exact Or.inl ⟨e, h, rfl, rfl⟩
    · have he := List.mem_singleton.mp h
      exact Or.inr ⟨by rw [he], by rw [he]⟩

theorem foldl_addRow_pairs {lg : ℚ → ℚ} {n : ℕ} {avg : ℚ} :
    ∀ (rows : List JoinRow) (m : List ScoreEntry) (e : ScoreEntry),
      e ∈ rows.foldl (addRow lg n avg) m →
      (∃ x ∈ m, e.id = x.id ∧ e.content = x.content) ∨
      (∃ row ∈ rows, e.id = row.id ∧ e.content = row.content) := by
  intro rows
  induction rows with
  | nil => intro m e h; exact Or.inl ⟨e, by simpa using h, rfl, rfl⟩
  | cons row rows ih =>
    intro m e h
    rcases ih _ e h with ⟨x, hx, hxe⟩ | ⟨row2, hrow2, hre⟩
    · rcases addRow_pairs hx with ⟨y, hy, hye⟩ | hre
      · exact Or.inl ⟨y, hy, hxe.1.trans hye.1, hxe.2.trans hye.2⟩
      · exact Or.inr ⟨row, by simp, hxe.1.trans hre.1, hxe.2.trans hre.2⟩
    · exact Or.inr ⟨row2, by simp [hrow2], hre⟩

theorem joinRows_pairs {store : KWStore} {tokens : List String} {row : JoinRow}
    (h : row ∈ joinRows store tokens) :
    ∃ d ∈ store.docs, row.id = d.id ∧ row.content = d.content := by
  rw [joinRows] at h
  obtain ⟨k, hk, hfk⟩ := List.mem_filterMap.mp h
  by_cases hterm : k.term ∈ tokens
  · rw [if_pos hterm] at hfk
    rcases hf1 : store.docs.find? (fun d => d.id = k.documentId) with _ | d
    · rw [hf1] at hfk
      simp at hfk
    · rcases hf2 : store.termStats.find? (fun q => q.1 = k.term) with _ | ts
      · rw [hf1, hf2] at hfk
        simp at hfk
      · rw [hf1, hf2] at hfk
        have hrow := Option.some.inj hfk
        exact ⟨d, List.mem_of_find?_eq_some hf1, by rw [← hrow], by rw [← hrow]⟩
  · rw [if_neg hterm] at hfk
    simp at hfk

/-- Every keyword search result is drawn from a documents row: its id and
content are those of a row of the store. -/
theorem keywordSearch_result_from_docs {lg : ℚ → ℚ} {store : KWStore} {q : String} {k : ℕ}
    {r : SearchResult} (h : r ∈ keywordSearch lg store q k) :
    ∃ d ∈ store.docs, r.id = d.id ∧ r.content = d.content := by
  simp only [keywordSearch] at h
  by_cases h1 : tokenize q = []
  · rw [if_pos h1] at h
    simp at h
  · rw [if_neg h1] at h
    by_cases h2 : store.totalDocuments = 0
    · rw [if_pos h2] at h
      simp at h
    · rw [if_neg h2] at h
      obtain ⟨e, he, her⟩ := List.mem_map.mp h
      have he2 : e ∈ List.insertionSort scoreGE
          ((joinRows store (tokenize q)).foldl
            (addRow lg store.totalDocuments store.avgDocLength) []) :=
        List.mem_of_mem_take he
      have he3 := (List.perm_insertionSort scoreGE _).mem_iff.mp he2
      rcases foldl_addRow_pairs _ _ _ he3 with ⟨x, hx, _⟩ | ⟨row, hrow, hre⟩
      · simp at hx
      · obtain ⟨d, hd, hde⟩ := joinRows_pairs hrow
        refine ⟨d, hd, ?_, ?_⟩
        · rw [← her]
          exact hre.1.trans hde.1
        · rw [← her]
          exact hre.2.trans hde.2

def mkDoc (X content : String) : Doc :=
  { id := X, content := content, title := "", source := "", category := "" }

theorem mkDoc_id (X content : String) : (mkDoc X content).id = X := rfl

theorem mkDoc_content (X content : String) : (mkDoc X content).content = content := rfl

theorem docRowOf_id (doc : Doc) (c : Chunk) : (docRowOf doc c).id = c.id := rfl

theorem vecEntryOf_id (doc : Doc) (c : Chunk) : (vecEntryOf doc c).id = c.id := rfl

/-- Claim C6 — starting from a state holding nothing of document X,
ingesting X with content c1 and then with content c2 (both ingestions
succeeding) leaves: exactly the chunks of c2 as the documents rows whose
id or parent is X; only c2 chunks among X-chunk entries of the vector
index, with every c2 chunk present; and every keyword search result
carrying an X chunk id is a chunk of c2 — so a search never returns a
chunk produced by the first ingestion. -/
theorem reingest_replaces (X c1 c2 : String) (s s1 s2 : SysState)
    (emb1 emb2 : String → Bool) (hclean : CleanFor X s)
    (h1 : ingest emb1 (mkDoc X c1) s = Except.ok s1)
    (h2 : ingest emb2 (mkDoc X c2) s1 = Except.ok s2) :
    (s2.kw.docs.filter (docMatches X)).map (fun r => (r.id, r.content)) =
      (chunk c2 X).map (fun c => (c.id, c.content)) ∧
    (∀ v ∈ s2.vec, isChunkIdOf X v.id →
      (v.id, v.content) ∈ (chunk c2 X).map (fun c => (c.id, c.content))) ∧
    (∀ c ∈ chunk c2 X, ∃ v ∈ s2.vec, v.id = c.id ∧ v.content = c.content) ∧
    (∀ (lg : ℚ → ℚ) (q : String) (k : ℕ) (r : SearchResult),
      r ∈ keywordSearch lg s2.kw q k → isChunkIdOf X r.id →
      (r.id, r.content) ∈ (chunk c2 X).map (fun c => (c.id, c.content))) := by
  obtain ⟨hcd, hcv⟩ := hclean
  have e1 := ingest_ok_eq emb1 (mkDoc X c1) s s1 h1
  have e2 := ingest_ok_eq emb2 (mkDoc X c2) s1 s2 h2
  have hany1 : s.kw.docs.any (docMatches X) = false := by
    rw [List.any_eq_false]
    intro r hr
    simp [(hcd r hr).1]
  have hs1docs : s1.kw.docs = s.kw.docs ++ (chunk c1 X).map (docRowOf (mkDoc X c1)) := by
    rw [e1]
    simp only [ingestPure, mkDoc_id, mkDoc_content]
    rw [if_neg (by rw [hany1]; exact Bool.false_ne_true)]
    exact foldl_processChunk_docs _ _ _
  have hs1vec : s1.vec =
      upsertList s.vec ((chunk c1 X).map (vecEntryOf (mkDoc X c1))) := by
    rw [e1]
    simp only [ingestPure, mkDoc_id, mkDoc_content]
    rw [if_neg (by rw [hany1]; exact Bool.false_ne_true)]
    rw [foldl_processChunk_vec]
  have hchunks1_ne : chunk c1 X ≠ [] := by
    intro hnil
    have := (chunk_ok c1 X).1
    rw [hnil] at this
    simp at this
  have hrow1_match : ∀ r ∈ (chunk c1 X).map (docRowOf (mkDoc X c1)), docMatches X r = true := by
    intro r hr
    obtain ⟨c, hc, hcr⟩ := List.mem_map.mp hr
    have hparent : r.parentId = X := by
      rw [← hcr]
      exact (chunk_mem_fields hc).1
    simp [docMatches, hparent]
  have hany2 : s1.kw.docs.any (docMatches X) = true := by
    rw [hs1docs, List.any_append, Bool.or_eq_true]
    refine Or.inr ?_
    rw [List.any_eq_true]
    obtain ⟨c, hc⟩ := List.exists_mem_of_ne_nil _ hchunks1_ne
    exact ⟨docRowOf (mkDoc X c1) c, List.mem_map_of_mem _ hc,
      hrow1_match _ (List.mem_map_of_mem _ hc)⟩
  have hfilter1 : s1.kw.docs.filter (docMatches X) =
      (chunk c1 X).map (docRowOf (mkDoc X c1)) := by
    rw [hs1docs, List.filter_append]
    have hleft : s.kw.docs.filter (docMatches X) = [] := by
      rw [List.filter_eq_nil_iff]
      intro r hr
      simp [(hcd r hr).1]
    have hright : ((chunk c1 X).map (docRowOf (mkDoc X c1))).filter (docMatches X) =
        (chunk c1 X).map (docRowOf (mkDoc X c1)) := by
      rw [List.filter_eq_self]
      exact hrow1_match
    rw [hleft, hright]
    simp
  have hids1 : (s1.kw.docs.filter (docMatches X)).map (fun r => r.id) =
      (chunk c1 X).map (fun c => c.id) := by
    rw [hfilter1, List.map_map]
    exact List.map_congr_left (fun c _ => rfl)
  have hids1_ne : (s1.kw.docs.filter (docMatches X)).map (fun r => r.id) ≠ [] := by
    rw [hids1]
    simpa using hchunks1_ne
  have hdel_docs : (deleteDoc X s1).kw.docs = s.kw.docs := by
    simp only [deleteDoc]
    rw [if_neg hids1_ne]
    rw [hs1docs, List.filter_append]
    have hleft : s.kw.docs.filter (fun r => ¬ docMatches X r = true) = s.kw.docs := by
      rw [List.filter_eq_self]
      intro r hr
      simp [(hcd r hr).1]
    have hright : ((chunk c1 X).map (docRowOf (mkDoc X c1))).filter
        (fun r => ¬ docMatches X r = true) = [] := by
      rw [List.filter_eq_nil_iff]
      intro r hr
      simp [hrow1_match r hr]
    rw [hleft, hright]
    simp
  have hdel_vec : (deleteDoc X s1).vec =
      deleteByIds ((chunk c1 X).map (fun c => c.id)) s1.vec := by
    simp only [deleteDoc]
    rw [if_neg hids1_ne]
    rw [hids1]
  have hs2docs : s2.kw.docs = s.kw.docs ++ (chunk c2 X).map (docRowOf (mkDoc X c2)) := by
    rw [e2]
    simp only [ingestPure, mkDoc_id, mkDoc_content]
    rw [if_pos hany2, foldl_processChunk_docs, hdel_docs]
  have hs2vec : s2.vec =
      upsertList (deleteByIds ((chunk c1 X).map (fun c => c.id)) s1.vec)
        ((chunk c2 X).map (vecEntryOf (mkDoc X c2))) := by
    rw [e2]
    simp only [ingestPure, mkDoc_id, mkDoc_content]
    rw [if_pos hany2, foldl_processChunk_vec, hdel_vec]
  have hnotfirst : ∀ v ∈ deleteByIds ((chunk c1 X).map (fun c => c.id)) s1.vec,
      ¬ isChunkIdOf X v.id := by
    intro v hv hX
    rw [deleteByIds] at hv
    have hv2 := List.mem_filter.mp hv
    have hvnotin : ¬ v.id ∈ (chunk c1 X).map (fun c => c.id) := by
      have := hv2.2
      simpa using this
    rw [hs1vec] at hv2
    rcases mem_upsertList hv2.1 with hmem | hmem
    · exact hcv v hmem hX
    · obtain ⟨c, hc, hcv1⟩ := List.mem_map.mp hmem
      refine hvnotin ?_
      rw [← hcv1, vecEntryOf_id]
      exact List.mem_map_of_mem _ hc
  refine ⟨?_, ?_, ?_, ?_⟩
  · rw [hs2docs, List.filter_append]
    have hleft : s.kw.docs.filter (docMatches X) = [] := by
      rw [List.filter_eq_nil_iff]
      intro r hr
      simp [(hcd r hr).1]
    have hrow2_match : ∀ r ∈ (chunk c2 X).map (docRowOf (mkDoc X c2)),
        docMatches X r = true := by
      intro r hr
      obtain ⟨c, hc, hcr⟩ := List.mem_map.mp hr
      have hparent : r.parentId = X := by
        rw [← hcr]
        exact (chunk_mem_fields hc).1
      simp [docMatches, hparent]
    have hright : ((chunk c2 X).map (docRowOf (mkDoc X c2))).filter (docMatches X) =
        (chunk c2 X).map (docRowOf (mkDoc X c2)) := by
      rw [List.filter_eq_self]
      exact hrow2_match
    rw [hleft, hright, List.nil_append, List.map_map]
    exact List.map_congr_left (fun c _ => rfl)
  · intro v hv hX
    rw [hs2vec] at hv
    rcases mem_upsertList hv with hmem | hmem
    · exact absurd hX (hnotfirst v hmem)
    · obtain ⟨c, hc, hcv2⟩ := List.mem_map.mp hmem
      refine List.mem_map.mpr ⟨c, hc, ?_⟩
      rw [← hcv2]
      rfl
  · intro c hc
    have hnd2 : (((chunk c2 X).map (vecEntryOf (mkDoc X c2))).map (fun v => v.id)).Nodup := by
      rw [List.map_map]
      have := chunk_ids_nodup c2 X
      have heq : ((chunk c2 X).map ((fun v : VecEntry => v.id) ∘ vecEntryOf (mkDoc X c2))) =
          (chunk c2 X).map (fun c => c.id) := List.map_congr_left (fun c _ => rfl)
      rw [heq]
      exact this
    have hmem := mem_upsertList_of_mem hnd2 (List.mem_map_of_mem (vecEntryOf (mkDoc X c2)) hc)
      (deleteByIds ((chunk c1 X).map (fun c => c.id)) s1.vec)
    rw [← hs2vec] at hmem
    exact ⟨vecEntryOf (mkDoc X c2) c, hmem, rfl, rfl⟩
  · intro lg q k r hr hX
    obtain ⟨d, hd, hde⟩ := keywordSearch_result_from_docs hr
    rw [hs2docs] at hd
    rcases List.mem_append.mp hd with hd | hd
    · exfalso
      have hne := (hcd d hd).2
      rw [hde.1] at hX
      exact hne hX
    · obtain ⟨c, hc, hcd2⟩ := List.mem_map.mp hd
      refine List.mem_map.mpr ⟨c, hc, ?_⟩
      rw [hde.1, hde.2, ← hcd2]
      rfl

/-- An embedding collaborator that always succeeds, and the two states of
the C6 witness run. -/
def embT : String → Bool := fun _ => true

def s1W : SysState := okOf (ingest embT (mkDoc "doc" "hello world") emptySys)

def s2W : SysState := okOf (ingest embT (mkDoc "doc" "goodbye moon") s1W)

theorem eq_ok_of_isOk {e : Except SysState SysState} (h : e.isOk = true) :
    e = Except.ok (okOf e) := by
  cases e
  · simp [Except.isOk, Except.toBool] at h
  · rfl

/-- Witness for C6: ingest document doc twice with different contents
from the empty state. -/
theorem reingest_replaces_witness :
    CleanFor "doc" emptySys ∧
    ingest embT (mkDoc "doc" "hello world") emptySys = Except.ok s1W ∧
    ingest embT (mkDoc "doc" "goodbye moon") s1W = Except.ok s2W ∧
    (s2W.kw.docs.filter (docMatches "doc")).map (fun r => (r.id, r.content)) =
      (chunk "goodbye moon" "doc").map (fun c => (c.id, c.content)) := by
  have hclean : CleanFor "doc" emptySys := by
    constructor
    · intro r hr
      simp [emptySys, emptyStore] at hr
    · intro v hv
      simp [emptySys, emptyStore] at hv
  have h1 : ingest embT (mkDoc "doc" "hello world") emptySys = Except.ok s1W :=
    eq_ok_of_isOk (by decide)
  have h2 : ingest embT (mkDoc "doc" "goodbye moon") s1W = Except.ok s2W :=
    eq_ok_of_isOk (by decide)
  exact ⟨hclean, h1, h2,
    (reingest_replaces "doc" "hello world" "goodbye moon" emptySys s1W s2W embT embT
      hclean h1 h2).1⟩

end VectorizeWorker
